import Mathlib

/-!
Verification development for the objection.js repository snapshot
(`src/reproduction-template.js`, `src/examples/express/api.js`).

The repository ships only *usage* code: a bug-reproduction script exercising
conflict-aware inserts and an Express example exercising graph inserts,
eager fetches, relation-path allow-lists and id-scoped routes.  The ORM
engine those scripts call is not part of the snapshot, so the engine
operations are modelled from the specification (each such definition says so
in its doc comment), while the entity schemas, relation mappings, concrete
scenarios and route handlers are translated from the source files.

The file has two regions: all definitions first, then all theorems.
-/

namespace ObjectionSpec

/-! ## Definitions: conflict-aware insert (reproduction-template.js)

The `Movie` table of the reproduction template: integer primary key `id`
plus a `name` column (`createSchema`, `Movie.jsonSchema`). -/

structure MovieRow where
  id : Nat
  name : String
deriving DecidableEq, Repr

/-- Modelled from the spec: the Conflict-Aware Insert Compiler is not in the
snapshot.  Plain insert without a Conflict Policy: fails with
`UniqueViolation` when the primary key is already present, otherwise appends
the row and returns it (§3 Conflict Policy, §7 `UniqueViolation`). -/
def insertMovie (db : List MovieRow) (r : MovieRow) : Except String (List MovieRow × MovieRow) :=
  if db.any (fun o => o.id == r.id) then Except.error "UniqueViolation"
  else Except.ok (db ++ [r], r)

/-- Modelled from the spec: the engine's high-level single-row-returning
insert under an `Ignore` conflict policy (§4.5).  On a key conflict the
statement completes without error, storage is untouched and the single-row
result is absent (`none`); otherwise the row is stored and returned. -/
def insertIgnore (db : List MovieRow) (r : MovieRow) : List MovieRow × Option MovieRow :=
  if db.any (fun o => o.id == r.id) then (db, none)
  else (db ++ [r], some r)

/-- Modelled from the spec: the low-level multi-row-returning statement for
the same insert-or-ignore scenario (§4.5).  On a key conflict the result is
the empty row set; otherwise the singleton set of the inserted row. -/
def insertIgnoreRaw (db : List MovieRow) (r : MovieRow) : List MovieRow × List MovieRow :=
  if db.any (fun o => o.id == r.id) then (db, [])
  else (db ++ [r], [r])

/-- `findOne` on the movie table by id (`Movie.query().findOne`). -/
def findOneMovie (db : List MovieRow) (i : Nat) : Option MovieRow :=
  db.find? (fun o => o.id == i)

/-! ## Definitions: id-scoped HTTP routes (examples/express/api.js)

The route handlers below are translated from `api.js`.  The engine calls
they make (`findById`, `patchAndFetchById`, `deleteById`, `$relatedQuery`)
are modelled from the spec's not-found contract (§7): an id-scoped engine
operation on a missing id surfaces an explicit absent result and never
throws. -/

/-- A `Person` row as persisted by the example schema (id, nullable
`parentId`, `firstName`). -/
structure PRow where
  id : Nat
  parentId : Option Nat
  firstName : String
deriving DecidableEq, Repr

/-- An `Animal` row (id, `ownerId` foreign key, name, species). -/
structure ARow where
  id : Nat
  ownerId : Nat
  name : String
  species : String
deriving DecidableEq, Repr

/-- Response bodies the example routes send. -/
inductive Body where
  | person (p : PRow)
  | animals (l : List ARow)
  | emptyObj
  | absent
deriving DecidableEq, Repr

/-- An HTTP response: status code plus body. -/
structure HttpResp where
  status : Nat
  body : Body
deriving DecidableEq, Repr

/-- Modelled from the spec: `Person.query().findById(id)` — absent result on
a missing id, never a throw (§7 not-found). -/
def findPerson (db : List PRow) (i : Nat) : Option PRow :=
  db.find? (fun p => p.id == i)

/-- Modelled from the spec: `patchAndFetchById(id, body)` — patches the row
in place and returns it, or returns an absent result when the id matches no
row (§7 not-found: explicit absent result, not an exception).  The body is
reduced to the `firstName` field the example patches. -/
def patchAndFetchById (db : List PRow) (i : Nat) (nm : String) : List PRow × Option PRow :=
  match findPerson db i with
  | none => (db, none)
  | some p =>
    let p2 : PRow := PRow.mk p.id p.parentId nm
    (db.map (fun q => if q.id == i then p2 else q), some p2)

/-- Modelled from the spec: `deleteById(id)` — removes the matching rows and
reports how many were removed; no existence check, no throw. -/
def deleteById (db : List PRow) (i : Nat) : List PRow × Nat :=
  (db.filter (fun p => !(p.id == i)), (db.filter (fun p => p.id == i)).length)

/-- Fresh primary key for an inserted row (auto-increment). -/
def freshId (db : List PRow) : Nat :=
  (db.map (fun p => p.id)).foldr Nat.max 0 + 1

/-- `PATCH /persons/:id` (api.js): `patchAndFetchById` then
`res.send(person)` — the handler performs no not-found check, so a missing
id is sent as a 200 with an absent body. -/
def patchPersonRoute (db : List PRow) (i : Nat) (nm : String) : List PRow × HttpResp :=
  let r := patchAndFetchById db i nm
  (r.1, HttpResp.mk 200 (match r.2 with
    | some p => Body.person p
    | none => Body.absent))

/-- `DELETE /persons/:id` (api.js): `deleteById` then `res.send({})` — the
handler performs no existence check and always answers 200 with an empty
object. -/
def deletePersonRoute (db : List PRow) (i : Nat) : List PRow × HttpResp :=
  ((deleteById db i).1, HttpResp.mk 200 Body.emptyObj)

/-- `POST /persons/:id/children` (api.js): `findById`, `throwNotFound()`
when absent (caught by the error middleware as a 404), otherwise the child
is inserted through `$relatedQuery('children')` with the parent's key as its
`parentId`. -/
def addChildRoute (db : List PRow) (i : Nat) (nm : String) : List PRow × HttpResp :=
  match findPerson db i with
  | none => (db, HttpResp.mk 404 Body.absent)
  | some _ =>
    let c : PRow := PRow.mk (freshId db) (some i) nm
    (db ++ [c], HttpResp.mk 200 (Body.person c))

/-- `GET /persons/:id/pets` (api.js): `findById`, `throwNotFound()` when
absent, otherwise the person's pets filtered by the optional `species` query
parameter (`skipUndefined`: an absent parameter filters nothing). -/
def getPetsRoute (db : List PRow) (animals : List ARow) (i : Nat)
    (species : Option String) : HttpResp :=
  match findPerson db i with
  | none => HttpResp.mk 404 Body.absent
  | some _ =>
    HttpResp.mk 200 (Body.animals (animals.filter (fun a =>
      a.ownerId == i && (match species with
        | none => true
        | some s => a.species == s))))

/-! ## Definitions: eager fetch of a `HasMany` level (api.js `GET /persons`)

The example fetches persons eagerly with their `pets` (`HasMany` to
`Animal`).  The Eager Fetch Planner is engine code not in the snapshot. -/

/-- Modelled from the spec: the per-level child query of the Eager Fetch
Planner (§4.4) — one single query for a whole relation level, constrained to
the key set produced by the parent level's rows (breadth grouping, not one
query per row). -/
def fetchChildren (animals : List ARow) (parentIds : List Nat) : List ARow :=
  animals.filter (fun a => parentIds.contains a.ownerId)

/-- Modelled from the spec: reassembly (§4.4) — fetched child rows are
grouped by their correlating key (`ownerId`) and nested into each parent
row's relation array; a parent without matching children gets `[]`. -/
def attachPets (parents : List PRow) (children : List ARow) : List (PRow × List ARow) :=
  parents.map (fun p => (p, children.filter (fun a => a.ownerId == p.id)))

/-- Modelled from the spec: a one-level eager fetch of the `pets` relation —
the root query result plus one child query, so two queries in total however
many parents the root returned. -/
def eagerPets (persons : List PRow) (animals : List ARow) :
    List (PRow × List ARow) × Nat :=
  (attachPets persons (fetchChildren animals (persons.map (fun p => p.id))), 2)

/-! ## Definitions: insert plans and transactional execution

Shared row/operation representation for Insert Plans (§3): each atomic
insert operation targets a table, generates a key and carries a field row. -/

/-- A field value: integer, string or SQL null. -/
inductive Value where
  | num (n : Int)
  | str (s : String)
  | null
deriving DecidableEq, Repr

/-- One atomic insert operation of an Insert Plan: target table (or through
table), the key its row is inserted under, and the field row. -/
structure InsertOp where
  table : String
  key : Nat
  row : List (String × Value)
deriving DecidableEq, Repr

/-- Two operations address the same (table, primary key) slot. -/
def sameKey (a b : InsertOp) : Bool :=
  a.table == b.table && a.key == b.key

/-- A statement conflicts with the visible database when its (table, key)
slot is already occupied — the executor would raise `UniqueViolation`. -/
def keyConflict (db : List InsertOp) (op : InsertOp) : Bool :=
  db.any (fun o => sameKey o op)

/-- Modelled from the spec: sequential statement execution (§5, §6).  Each
statement either applies to the running database or fails with
`UniqueViolation`, short-circuiting the rest of the plan. -/
def runPlan (db : List InsertOp) : List InsertOp → Except String (List InsertOp)
  | [] => Except.ok db
  | op :: rest =>
    if keyConflict db op then Except.error "UniqueViolation"
    else runPlan (db ++ [op]) rest

/-- Remove from `db` every row occupying a (table, key) slot recorded in
`done` — the rollback of the statements applied so far. -/
def removeOps (db done : List InsertOp) : List InsertOp :=
  db.filter (fun o => !(done.any (fun d => sameKey d o)))

/-- Modelled from the spec: transactional plan execution (§5).  Statements
are applied one at a time to the visible database while the transaction
records them; a failure at any step rolls back all prior statements of the
plan by removing the recorded rows. -/
def runPlanTxAux (db done : List InsertOp) : List InsertOp → List InsertOp
  | [] => db
  | op :: rest =>
    if keyConflict db op then removeOps db done
    else runPlanTxAux (db ++ [op]) (done ++ [op]) rest

/-- Execute an Insert Plan inside a fresh transaction over `db`. -/
def runPlanTx (db : List InsertOp) (plan : List InsertOp) : List InsertOp :=
  runPlanTxAux db [] plan

/-- Number of rows of table `t` visible in the database. -/
def rowsIn (db : List InsertOp) (t : String) : Nat :=
  (db.filter (fun o => o.table == t)).length

/-! ## Definitions: relation schema registry (reproduction-template.js)

The relation mappings of the three models `Person`, `Animal`, `Movie`,
translated from `relationMappings` in the reproduction template. -/

/-- Relation kinds: `HasManyRelation`, `BelongsToOneRelation`,
`ManyToManyRelation`. -/
inductive RelKind where
  | hasMany
  | belongsToOne
  | manyToMany
deriving DecidableEq, Repr

/-- A declared relation: kind, target entity, the join columns on the owner
(`fromCol`) and target (`toCol`) side, and for `ManyToMany` the through
table with its two foreign-key columns. -/
structure Rel where
  kind : RelKind
  target : String
  fromCol : String
  toCol : String
  thTable : String
  thFrom : String
  thTo : String
deriving DecidableEq, Repr

/-- The Relation Schema Registry holding the six relations declared in the
reproduction template's `relationMappings`:
`Person.pets`, `Person.movies`, `Person.children`, `Person.parent`,
`Animal.owner`, `Movie.actors`. -/
def schemaRel (ent nm : String) : Option Rel :=
  if ent = "Person" ∧ nm = "pets" then
    some (Rel.mk RelKind.hasMany "Animal" "id" "ownerId" "" "" "")
  else if ent = "Person" ∧ nm = "movies" then
    some (Rel.mk RelKind.manyToMany "Movie" "id" "id" "Person_Movie" "personId" "movieId")
  else if ent = "Person" ∧ nm = "children" then
    some (Rel.mk RelKind.hasMany "Person" "id" "parentId" "" "" "")
  else if ent = "Person" ∧ nm = "parent" then
    some (Rel.mk RelKind.belongsToOne "Person" "parentId" "id" "" "" "")
  else if ent = "Animal" ∧ nm = "owner" then
    some (Rel.mk RelKind.belongsToOne "Person" "ownerId" "id" "" "" "")
  else if ent = "Movie" ∧ nm = "actors" then
    some (Rel.mk RelKind.manyToMany "Person" "id" "id" "Person_Movie" "movieId" "personId")
  else none

/-- The entity tables of the reproduction template's schema (the through
table `Person_Movie` is not an entity). -/
def goodEnt (e : String) : Bool :=
  e == "Person" || e == "Animal" || e == "Movie"

/-! ## Definitions: graph payloads and the insert planner -/

mutual
/-- A Graph Payload (§3): a record of scalar fields plus, per relation name
present, nested payloads. -/
inductive Payload where
  | node (fields : List (String × Value)) (rels : RelList)
/-- The relation entries of a payload node, in payload order. -/
inductive RelList where
  | nil
  | cons (name : String) (children : PList) (rest : RelList)
/-- A list of nested payloads under one relation key. -/
inductive PList where
  | nil
  | cons (head : Payload) (tail : PList)
end

mutual
/-- Modelled from the spec: the Graph Insert Planner (§4.3) is not in the
snapshot.  Depth-first walk of the payload: `BelongsToOne` children are
planned before the node itself and their generated keys are backfilled into
the node's foreign-key fields; then the node's own insert; then `HasMany`
children (the node's key backfilled into each child's foreign-key field) and
`ManyToMany` pairings (each child planned independently, followed by exactly
one through-table row carrying both keys).  Generated keys are drawn from
the counter; relation names absent from the registry are screened out by
allow-list/registry validation before planning and contribute nothing here.
Returns (ops, key generated for this node, next counter). -/
def planNode (ent : String) (extra : List (String × Value)) :
    Payload → Nat → List InsertOp × Nat × Nat
  | Payload.node fields rels, ctr =>
    let pre := planBelongs ent rels ctr
    let myKey := pre.2.2
    let selfOp : InsertOp := InsertOp.mk ent myKey (fields ++ extra ++ pre.2.1)
    let post := planOwned ent myKey rels (myKey + 1)
    (pre.1 ++ selfOp :: post.1, myKey, post.2)

/-- The `BelongsToOne` pass over a node's relation entries: plans each
single child first and collects the foreign-key fields to backfill into the
owning node's row.  Returns (ops, backfill fields, next counter). -/
def planBelongs (ent : String) : RelList → Nat → List InsertOp × List (String × Value) × Nat
  | RelList.nil, ctr => ([], [], ctr)
  | RelList.cons nm cs rest, ctr =>
    match schemaRel ent nm with
    | some r =>
      match r.kind with
      | RelKind.belongsToOne =>
        match cs with
        | PList.cons c PList.nil =>
          let cp := planNode r.target [] c ctr
          let rp := planBelongs ent rest cp.2.2
          (cp.1 ++ rp.1, (r.fromCol, Value.num cp.2.1) :: rp.2.1, rp.2.2)
        | _ => planBelongs ent rest ctr
      | _ => planBelongs ent rest ctr
    | none => planBelongs ent rest ctr

/-- The owned pass over a node's relation entries, run after the node's own
insert: `HasMany` children and `ManyToMany` pairings. -/
def planOwned (ent : String) (pk : Nat) : RelList → Nat → List InsertOp × Nat
  | RelList.nil, ctr => ([], ctr)
  | RelList.cons nm cs rest, ctr =>
    match schemaRel ent nm with
    | some r =>
      match r.kind with
      | RelKind.hasMany =>
        let cp := planHasMany r pk cs ctr
        let rp := planOwned ent pk rest cp.2
        (cp.1 ++ rp.1, rp.2)
      | RelKind.manyToMany =>
        let cp := planPairings r pk cs ctr
        let rp := planOwned ent pk rest cp.2
        (cp.1 ++ rp.1, rp.2)
      | RelKind.belongsToOne => planOwned ent pk rest ctr
    | none => planOwned ent pk rest ctr

/-- Plan the children of a `HasMany` entry: each child is planned with the
parent's key backfilled into the child's foreign-key column. -/
def planHasMany (r : Rel) (pk : Nat) : PList → Nat → List InsertOp × Nat
  | PList.nil, ctr => ([], ctr)
  | PList.cons c cs, ctr =>
    let cp := planNode r.target [(r.toCol, Value.num pk)] c ctr
    let rp := planHasMany r pk cs cp.2.2
    (cp.1 ++ rp.1, rp.2)

/-- Plan the pairings of a `ManyToMany` entry: each child is planned
independently and followed by exactly one through-table row carrying the
parent's key and the child's key. -/
def planPairings (r : Rel) (pk : Nat) : PList → Nat → List InsertOp × Nat
  | PList.nil, ctr => ([], ctr)
  | PList.cons c cs, ctr =>
    let cp := planNode r.target [] c ctr
    let thOp : InsertOp := InsertOp.mk r.thTable cp.2.2
      [(r.thFrom, Value.num pk), (r.thTo, Value.num cp.2.1)]
    let rp := planPairings r pk cs (cp.2.2 + 1)
    (cp.1 ++ thOp :: rp.1, rp.2)
end

mutual
/-- Size of a payload: one per payload node plus one per nesting slot — an
upper bound for the number of statements its plan can contain. -/
def psizeP : Payload → Nat
  | Payload.node _ rels => 1 + psizeR rels
/-- Size of a relation-entry list. -/
def psizeR : RelList → Nat
  | RelList.nil => 0
  | RelList.cons _ cs rest => psizeL cs + psizeR rest
/-- Size of a payload list: each child contributes its own size plus one
slot (a potential through-table row). -/
def psizeL : PList → Nat
  | PList.nil => 0
  | PList.cons c cs => 1 + psizeP c + psizeL cs
end

mutual
/-- Number of `ManyToMany` endpoint-pair occurrences in a payload: the
number of through-table rows the planner must emit for it. -/
def m2mCountP (ent : String) : Payload → Nat
  | Payload.node _ rels => m2mCountB ent rels + m2mCountO ent rels
/-- Pair occurrences reachable through the `BelongsToOne` pass. -/
def m2mCountB (ent : String) : RelList → Nat
  | RelList.nil => 0
  | RelList.cons nm cs rest =>
    (match schemaRel ent nm with
     | some r =>
       match r.kind with
       | RelKind.belongsToOne =>
         match cs with
         | PList.cons c PList.nil => m2mCountP r.target c
         | _ => 0
       | _ => 0
     | none => 0) + m2mCountB ent rest
/-- Pair occurrences reachable through the owned pass. -/
def m2mCountO (ent : String) : RelList → Nat
  | RelList.nil => 0
  | RelList.cons nm cs rest =>
    (match schemaRel ent nm with
     | some r =>
       match r.kind with
       | RelKind.hasMany => m2mCountHM r.target cs
       | RelKind.manyToMany => m2mCountMM r.target cs
       | RelKind.belongsToOne => 0
     | none => 0) + m2mCountO ent rest
/-- Pair occurrences inside `HasMany` children. -/
def m2mCountHM (ent : String) : PList → Nat
  | PList.nil => 0
  | PList.cons c cs => m2mCountP ent c + m2mCountHM ent cs
/-- Pair occurrences of a `ManyToMany` entry: one per child, plus the
occurrences inside each child. -/
def m2mCountMM (ent : String) : PList → Nat
  | PList.nil => 0
  | PList.cons c cs => m2mCountP ent c + 1 + m2mCountMM ent cs
end

/-- The number of statements of a plan that target table `t`. -/
def countTable (ops : List InsertOp) (t : String) : Nat :=
  ops.countP (fun o => o.table == t)

/-- The payload identity of a node: its `id` field, when present. -/
def lookupId (fields : List (String × Value)) : Option Value :=
  match fields.find? (fun f => f.1 == "id") with
  | some f => some f.2
  | none => none

mutual
/-- Modelled from the spec: cyclic-payload detection (§4.3, §7
`CyclicPayloadError`) — a payload is pathological when a node's own identity
(entity plus `id` value) reappears as its own descendant; node identity is
rendered as the (entity, primary-key value) pair. -/
def cyclicP (ent : String) (anc : List (String × Value)) : Payload → Bool
  | Payload.node fields rels =>
    match lookupId fields with
    | some v => anc.contains (ent, v) || cyclicR ent ((ent, v) :: anc) rels
    | none => cyclicR ent anc rels
/-- Cycle detection over a node's relation entries. -/
def cyclicR (ent : String) (anc : List (String × Value)) : RelList → Bool
  | RelList.nil => false
  | RelList.cons nm cs rest =>
    (match schemaRel ent nm with
     | some r => cyclicL r.target anc cs
     | none => false) || cyclicR ent anc rest
/-- Cycle detection over a list of nested payloads. -/
def cyclicL (ent : String) (anc : List (String × Value)) : PList → Bool
  | PList.nil => false
  | PList.cons c cs => cyclicP ent anc c || cyclicL ent anc cs
end

/-- Planning errors surfaced before any statement is issued. -/
inductive PlanError where
  | cyclicPayload
deriving DecidableEq, Repr

/-- Modelled from the spec: the planning entry point — detect pathological
literal self-nesting first and fail with `CyclicPayloadError` issuing no
statement; otherwise produce the Insert Plan (§4.3). -/
def planGraph (ent : String) (p : Payload) : Except PlanError (List InsertOp) :=
  if cyclicP ent [] p then Except.error PlanError.cyclicPayload
  else Except.ok (planNode ent [] p 1).1

/-! ## Definitions: relation-path expressions (spec §4.2)

The Relation-Path Parser is engine code not in the snapshot; the grammar it
must accept is the caller-facing expression grammar used by `api.js`
(`allowInsert('[pets, children.[pets, movies], movies, parent]')`,
`allowEager`, `eager`): comma-separated names, `.` for descent, `[...]` for
sibling grouping at a descended level. -/

/-- Tokens of a relation-path expression. -/
inductive Tok where
  | name (s : String)
  | dot
  | comma
  | lb
  | rb
deriving DecidableEq, Repr

/-- Flush the pending name buffer (reversed) into the token accumulator;
an empty buffer emits nothing, so name tokens are nonempty by
construction. -/
def flushTok (buf : List Char) (acc : List Tok) : List Tok :=
  if buf.isEmpty then acc else Tok.name (String.mk buf.reverse) :: acc

/-- Modelled from the spec: tokenize on `.`, `[`, `]`, `,` (§4.2); spaces
separate names. -/
def tokenizeAux : List Char → List Char → List Tok → List Tok
  | [], buf, acc => (flushTok buf acc).reverse
  | ch :: cs, buf, acc =>
    if ch = '.' then tokenizeAux cs [] (Tok.dot :: flushTok buf acc)
    else if ch = ',' then tokenizeAux cs [] (Tok.comma :: flushTok buf acc)
    else if ch = '[' then tokenizeAux cs [] (Tok.lb :: flushTok buf acc)
    else if ch = ']' then tokenizeAux cs [] (Tok.rb :: flushTok buf acc)
    else if ch = ' ' then tokenizeAux cs [] (flushTok buf acc)
    else tokenizeAux cs (ch :: buf) acc

/-- Tokenize a relation-path expression string. -/
def tokenize (s : String) : List Tok := tokenizeAux s.data [] []

mutual
/-- A node of a Relation-Path Tree: a relation name plus nested
sub-relations. -/
inductive RTree where
  | node (name : String) (children : RForest)
/-- An ordered list of sibling relation-path nodes. -/
inductive RForest where
  | nil
  | cons (t : RTree) (rest : RForest)
end

mutual
/-- Modelled from the spec: recursive-descent parsing of one item of the
relation-path grammar (§4.2) — a name, optionally descending with `.` into
either a single item or a bracketed sibling group.  Fuel bounds the
recursion depth; `2 * length + 2` fuel always suffices (completeness
theorem below). -/
def parseItemF : Nat → List Tok → Option (RTree × List Tok)
  | 0, _ => none
  | fuel + 1, ts =>
    match ts with
    | Tok.name s :: rest =>
      match rest with
      | Tok.dot :: rest2 =>
        match rest2 with
        | Tok.lb :: rest3 =>
          match parseListF fuel rest3 with
          | some (f, Tok.rb :: rest4) => some (RTree.node s f, rest4)
          | _ => none
        | _ =>
          match parseItemF fuel rest2 with
          | some (t, rest3) => some (RTree.node s (RForest.cons t RForest.nil), rest3)
          | _ => none
      | _ => some (RTree.node s RForest.nil, rest)
    | _ => none

/-- Parse a comma-separated list of items. -/
def parseListF : Nat → List Tok → Option (RForest × List Tok)
  | 0, _ => none
  | fuel + 1, ts =>
    match parseItemF fuel ts with
    | some (t, Tok.comma :: rest) =>
      match parseListF fuel rest with
      | some (f, rest2) => some (RForest.cons t f, rest2)
      | _ => none
    | some (t, rest) => some (RForest.cons t RForest.nil, rest)
    | none => none
end

/-- Parse a whole token stream: an optional top-level bracket around a
sibling list; all tokens must be consumed (`SyntaxError` otherwise,
rendered as `none`). -/
def parseToks (ts : List Tok) : Option RForest :=
  match ts with
  | Tok.lb :: rest =>
    match parseListF (2 * rest.length + 2) rest with
    | some (f, [Tok.rb]) => some f
    | _ => none
  | _ =>
    match parseListF (2 * ts.length + 2) ts with
    | some (f, []) => some f
    | _ => none

/-- Parse a relation-path expression string into a Relation-Path Tree. -/
def parseRel (s : String) : Option RForest := parseToks (tokenize s)

/-- The relation-path grammar as a derivability predicate: `Gram true ts`
derives one item from `ts`, `Gram false ts` derives a comma-separated
item list.  This is the spec's grammar (§4.2, §6) stated independently of
the parser. -/
inductive Gram : Bool → List Tok → Prop where
  | leaf (s : String) : Gram true [Tok.name s]
  | descend (s : String) (ts : List Tok) : Gram true ts →
      Gram true (Tok.name s :: Tok.dot :: ts)
  | bracket (s : String) (ts : List Tok) : Gram false ts →
      Gram true (Tok.name s :: Tok.dot :: Tok.lb :: ts ++ [Tok.rb])
  | single (ts : List Tok) : Gram true ts → Gram false ts
  | more (ts us : List Tok) : Gram true ts → Gram false us →
      Gram false (ts ++ Tok.comma :: us)

/-- A token stream is a syntactically well-formed expression: a sibling
list, optionally wrapped in one top-level bracket. -/
def GExpr (ts : List Tok) : Prop :=
  Gram false ts ∨ ∃ us, Gram false us ∧ ts = Tok.lb :: us ++ [Tok.rb]

/-- A relation-path expression string is syntactically well-formed. -/
def WellFormedPath (s : String) : Prop := GExpr (tokenize s)

/-- `leadsTo p a`: path `p` is a literal prefix-subset of path `a`. -/
def leadsTo : List String → List String → Bool
  | [], _ => true
  | _ :: _, [] => false
  | x :: xs, y :: ys => x == y && leadsTo xs ys

/-- A path is allowed when it is a prefix-subset of some allow-list path. -/
def allowedPath (allow : List (List String)) (p : List String) : Bool :=
  allow.any (fun a => leadsTo p a)

mutual
/-- All root-to-node paths of a relation-path node, in depth-first
preorder. -/
def pathsT : RTree → List (List String)
  | RTree.node s cs => [s] :: (pathsF cs).map (fun q => s :: q)
/-- All root-to-node paths of a forest, in depth-first preorder. -/
def pathsF : RForest → List (List String)
  | RForest.nil => []
  | RForest.cons t rest => pathsT t ++ pathsF rest
end

mutual
/-- Modelled from the spec: allow-list validation of one node (§4.2) — the
node's own path is checked first, then its children; a disallowed path
aborts with that path (the `NotAllowedError` payload), before any statement
is issued. -/
def valT (allow : List (List String)) (pre : List String) : RTree → Except (List String) Unit
  | RTree.node s cs =>
    if allowedPath allow (pre ++ [s]) then valF allow (pre ++ [s]) cs
    else Except.error (pre ++ [s])
/-- Validation of a forest, left to right, stopping at the first error. -/
def valF (allow : List (List String)) (pre : List String) : RForest → Except (List String) Unit
  | RForest.nil => Except.ok ()
  | RForest.cons t rest =>
    match valT allow pre t with
    | Except.ok _ => valF allow pre rest
    | Except.error e => Except.error e
end

/-- Validate a parsed Relation-Path Tree against an allow-list. -/
def validateTree (allow : List (List String)) (f : RForest) : Except (List String) Unit :=
  valF allow [] f

/-- Validation characterized over a path list: the first path failing the
allow check is the error; no failing path means success. -/
def valSpec (allow : List (List String)) (ps : List (List String)) : Except (List String) Unit :=
  match ps.find? (fun p => !(allowedPath allow p)) with
  | some e => Except.error e
  | none => Except.ok ()

/-- Membership of a (relation name, children) entry in a relation list. -/
inductive RelMem : String → PList → RelList → Prop where
  | head (nm : String) (cs : PList) (rest : RelList) : RelMem nm cs (RelList.cons nm cs rest)
  | tail (nm mn : String) (cs ds : PList) (rest : RelList) :
      RelMem nm cs rest → RelMem nm cs (RelList.cons mn ds rest)

/-- Membership of a payload in a payload list. -/
inductive PMem : Payload → PList → Prop where
  | head (c : Payload) (cs : PList) : PMem c (PList.cons c cs)
  | tail (c d : Payload) (cs : PList) : PMem c cs → PMem c (PList.cons d cs)

/-! ## Theorems -/

/-- C1: for an insert whose key already exists, executed under an Ignore
conflict policy, the high-level single-row-returning call yields an absent
value while the low-level multi-row-returning statement yields an empty
result set — two different result shapes for the same underlying no-op,
which also leaves storage untouched. -/
theorem insert_ignore_result_shapes (db : List MovieRow) (r : MovieRow)
    (h : db.any (fun o => o.id == r.id) = true) :
    (insertIgnore db r).2 = none ∧ (insertIgnoreRaw db r).2 = [] ∧
    (insertIgnore db r).1 = db ∧ (insertIgnoreRaw db r).1 = db := by
  unfold insertIgnore insertIgnoreRaw
  rw [h]
  exact ⟨rfl, rfl, rfl, rfl⟩

/-- C1 witness: the reproduction template's scenario — `{id 1, Another name}`
inserted over a table already holding id 1. -/
theorem insert_ignore_result_shapes_witness :
    ([MovieRow.mk 1 "Initial name"].any (fun o => o.id == (MovieRow.mk 1 "Another name").id) = true) ∧
    (insertIgnore [MovieRow.mk 1 "Initial name"] (MovieRow.mk 1 "Another name")).2 = none ∧
    (insertIgnoreRaw [MovieRow.mk 1 "Initial name"] (MovieRow.mk 1 "Another name")).2 = [] ∧
    (insertIgnore [MovieRow.mk 1 "Initial name"] (MovieRow.mk 1 "Another name")).1 = [MovieRow.mk 1 "Initial name"] ∧
    (insertIgnoreRaw [MovieRow.mk 1 "Initial name"] (MovieRow.mk 1 "Another name")).1 = [MovieRow.mk 1 "Initial name"] :=
  ⟨by decide, insert_ignore_result_shapes [MovieRow.mk 1 "Initial name"] (MovieRow.mk 1 "Another name") (by decide)⟩

/-- C2: the reproduction scenario of `main` — insert `{id 1, Initial name}`
into an empty Movie table, then insert the conflicting `{id 1, Another name}`
with conflict-target `id` and action Ignore: the second insert modifies
nothing, the single-row result is absent, and the row fetched for id 1
afterwards is still `{id 1, Initial name}`. -/
theorem conflict_ignore_leaves_row_unchanged :
    insertMovie [] (MovieRow.mk 1 "Initial name") =
      Except.ok ([MovieRow.mk 1 "Initial name"], MovieRow.mk 1 "Initial name") ∧
    insertIgnore [MovieRow.mk 1 "Initial name"] (MovieRow.mk 1 "Another name") =
      ([MovieRow.mk 1 "Initial name"], none) ∧
    findOneMovie (insertIgnore [MovieRow.mk 1 "Initial name"] (MovieRow.mk 1 "Another name")).1 1 =
      some (MovieRow.mk 1 "Initial name") := by
  exact ⟨rfl, by decide, by decide⟩

/-- C8 counterexample: patching a nonexistent id is an id-scoped patch
operation, yet the patch route yields no not-found outcome — it completes as
a 200 whose body is absent, a silently-empty success with no signal. -/
theorem patch_missing_id_silently_empty :
    (patchPersonRoute [] 1 "New name").2 = HttpResp.mk 200 Body.absent ∧
    ((patchPersonRoute [] 1 "New name").2.status == 404) = false := by
  decide

/-- C8 amended: id-scoped operations that fetch the row first (the
`findById`-based nested-relation routes) surface a distinct 404 not-found on
a missing id and never throw a generic error; the patch route, however,
completes as a 200 with an absent body — a silently-empty success. -/
theorem notfound_fetch_routes_only (db : List PRow) (animals : List ARow)
    (i : Nat) (nm : String) (sp : Option String)
    (h : findPerson db i = none) :
    (getPetsRoute db animals i sp).status = 404 ∧
    (addChildRoute db i nm).2.status = 404 ∧
    (patchPersonRoute db i nm).2 = HttpResp.mk 200 Body.absent := by
  unfold getPetsRoute addChildRoute patchPersonRoute patchAndFetchById
  rw [h]
  exact ⟨rfl, rfl, rfl⟩

/-- C8 amended witness: the concrete missing id 1 over an empty database. -/
theorem notfound_fetch_routes_only_witness :
    findPerson [] 1 = none ∧
    ((getPetsRoute [] [] 1 none).status = 404 ∧
     (addChildRoute [] 1 "Sami").2.status = 404 ∧
     (patchPersonRoute [] 1 "Sami").2 = HttpResp.mk 200 Body.absent) :=
  ⟨by decide, notfound_fetch_routes_only [] [] 1 "Sami" none (by decide)⟩

/-- C10 counterexample: the claim's contrast — that every id-scoped route
other than delete checks the fetched row and raises a 404-bearing error on a
missing id — fails at the patch route: `PATCH /persons/:id` on the missing
id 3 answers 200, not 404. -/
theorem patch_route_lacks_check :
    (patchPersonRoute [] 3 "x").2.status = 200 ∧
    ¬ (patchPersonRoute [] 3 "x").2.status = 404 := by
  decide

/-- C10 amended: delete-by-id on a nonexistent id completes as a success
returning an empty object, performing no existence check and surfacing no
not-found signal; the `findById`-based nested-relation routes (verified here
for add-child and list-pets) do check and raise a 404-bearing error, but the
patch route likewise lacks the check. -/
theorem delete_by_id_no_check (db : List PRow) (i : Nat)
    (h : findPerson db i = none) :
    (deletePersonRoute db i).2 = HttpResp.mk 200 Body.emptyObj ∧
    (addChildRoute db i "c").2.status = 404 ∧
    (getPetsRoute db [] i none).status = 404 ∧
    ¬ (patchPersonRoute db i "n").2.status = 404 := by
  unfold deletePersonRoute addChildRoute getPetsRoute patchPersonRoute patchAndFetchById
  rw [h]
  refine ⟨rfl, rfl, rfl, ?_⟩
  simp

/-- C10 amended witness: the concrete missing id 9 over an empty database. -/
theorem delete_by_id_no_check_witness :
    findPerson [] 9 = none ∧
    ((deletePersonRoute [] 9).2 = HttpResp.mk 200 Body.emptyObj ∧
     (addChildRoute [] 9 "c").2.status = 404 ∧
     (getPetsRoute [] [] 9 none).status = 404 ∧
     ¬ (patchPersonRoute [] 9 "n").2.status = 404) :=
  ⟨by decide, delete_by_id_no_check [] 9 (by decide)⟩

/-! ### Planner step equations

One-step unfoldings of the planner passes for each relation kind, used by
the inductions below. -/

theorem planBelongs_cons_none (ent nm : String) (cs : PList) (rest : RelList) (ctr : Nat)
    (hs : schemaRel ent nm = none) :
    planBelongs ent (RelList.cons nm cs rest) ctr = planBelongs ent rest ctr := by
  rw [planBelongs, hs]

theorem planBelongs_cons_skip (ent nm : String) (r : Rel) (cs : PList) (rest : RelList) (ctr : Nat)
    (hs : schemaRel ent nm = some r) (hk : ¬ r.kind = RelKind.belongsToOne) :
    planBelongs ent (RelList.cons nm cs rest) ctr = planBelongs ent rest ctr := by
  obtain ⟨k, tg, fc, tc, tt, tf, tto⟩ := r
  cases k with
  | belongsToOne => exact absurd rfl hk
  | hasMany => rw [planBelongs, hs]
  | manyToMany => rw [planBelongs, hs]

theorem planBelongs_cons_single (ent nm : String) (r : Rel) (c : Payload) (rest : RelList) (ctr : Nat)
    (hs : schemaRel ent nm = some r) (hk : r.kind = RelKind.belongsToOne) :
    planBelongs ent (RelList.cons nm (PList.cons c PList.nil) rest) ctr =
      ((planNode r.target [] c ctr).1 ++ (planBelongs ent rest (planNode r.target [] c ctr).2.2).1,
       (r.fromCol, Value.num (planNode r.target [] c ctr).2.1) ::
         (planBelongs ent rest (planNode r.target [] c ctr).2.2).2.1,
       (planBelongs ent rest (planNode r.target [] c ctr).2.2).2.2) := by
  obtain ⟨k, tg, fc, tc, tt, tf, tto⟩ := r
  cases hk
  rw [planBelongs, hs]

theorem planBelongs_cons_nil (ent nm : String) (r : Rel) (rest : RelList) (ctr : Nat)
    (hs : schemaRel ent nm = some r) (hk : r.kind = RelKind.belongsToOne) :
    planBelongs ent (RelList.cons nm PList.nil rest) ctr = planBelongs ent rest ctr := by
  obtain ⟨k, tg, fc, tc, tt, tf, tto⟩ := r
  cases hk
  rw [planBelongs, hs]

theorem planBelongs_cons_multi (ent nm : String) (r : Rel) (c d : Payload) (ds : PList)
    (rest : RelList) (ctr : Nat)
    (hs : schemaRel ent nm = some r) (hk : r.kind = RelKind.belongsToOne) :
    planBelongs ent (RelList.cons nm (PList.cons c (PList.cons d ds)) rest) ctr =
      planBelongs ent rest ctr := by
  obtain ⟨k, tg, fc, tc, tt, tf, tto⟩ := r
  cases hk
  rw [planBelongs, hs]

theorem planOwned_cons_none (ent nm : String) (pk : Nat) (cs : PList) (rest : RelList) (ctr : Nat)
    (hs : schemaRel ent nm = none) :
    planOwned ent pk (RelList.cons nm cs rest) ctr = planOwned ent pk rest ctr := by
  rw [planOwned, hs]

theorem planOwned_cons_belongs (ent nm : String) (r : Rel) (pk : Nat) (cs : PList)
    (rest : RelList) (ctr : Nat)
    (hs : schemaRel ent nm = some r) (hk : r.kind = RelKind.belongsToOne) :
    planOwned ent pk (RelList.cons nm cs rest) ctr = planOwned ent pk rest ctr := by
  obtain ⟨k, tg, fc, tc, tt, tf, tto⟩ := r
  cases hk
  rw [planOwned, hs]

theorem planOwned_cons_has (ent nm : String) (r : Rel) (pk : Nat) (cs : PList)
    (rest : RelList) (ctr : Nat)
    (hs : schemaRel ent nm = some r) (hk : r.kind = RelKind.hasMany) :
    planOwned ent pk (RelList.cons nm cs rest) ctr =
      ((planHasMany r pk cs ctr).1 ++ (planOwned ent pk rest (planHasMany r pk cs ctr).2).1,
       (planOwned ent pk rest (planHasMany r pk cs ctr).2).2) := by
  obtain ⟨k, tg, fc, tc, tt, tf, tto⟩ := r
  cases hk
  rw [planOwned, hs]

theorem planOwned_cons_mm (ent nm : String) (r : Rel) (pk : Nat) (cs : PList)
    (rest : RelList) (ctr : Nat)
    (hs : schemaRel ent nm = some r) (hk : r.kind = RelKind.manyToMany) :
    planOwned ent pk (RelList.cons nm cs rest) ctr =
      ((planPairings r pk cs ctr).1 ++ (planOwned ent pk rest (planPairings r pk cs ctr).2).1,
       (planOwned ent pk rest (planPairings r pk cs ctr).2).2) := by
  obtain ⟨k, tg, fc, tc, tt, tf, tto⟩ := r
  cases hk
  rw [planOwned, hs]

/-- The element placed right after a list prefix is found at the prefix's
length. -/
theorem get_append_cons {α : Type} (a : List α) (x : α) (b : List α) :
    (a ++ x :: b).get? a.length = some x := by
  induction a with
  | nil => rfl
  | cons y ys ih => simpa using ih

/-- Every planned node contributes its own insert statement, targeting its
entity's table under its generated key, between the `BelongsToOne` ops and
the owned ops. -/
theorem planNode_self (ent : String) (extra : List (String × Value)) (p : Payload) (ctr : Nat) :
    ∃ l1 row l2, (planNode ent extra p ctr).1 =
      l1 ++ InsertOp.mk ent (planNode ent extra p ctr).2.1 row :: l2 := by
  cases p with
  | node fields rels =>
    refine ⟨(planBelongs ent rels ctr).1,
      fields ++ extra ++ (planBelongs ent rels ctr).2.1,
      (planOwned ent (planBelongs ent rels ctr).2.2 rels ((planBelongs ent rels ctr).2.2 + 1)).1,
      ?_⟩
    simp [planNode]

/-! ### Plan-size bound and cycle detection (C9) -/

mutual
/-- A node's plan never exceeds the payload's literal size. -/
theorem planNode_len : ∀ (ent : String) (extra : List (String × Value)) (p : Payload) (ctr : Nat),
    (planNode ent extra p ctr).1.length ≤ psizeP p
  | ent, extra, Payload.node fields rels, ctr => by
    have h := passes_len ent (planBelongs ent rels ctr).2.2 rels ctr
      ((planBelongs ent rels ctr).2.2 + 1)
    simp only [planNode, psizeP, List.length_append, List.length_cons]
    omega

/-- Combined bound for the two passes over one relation-entry list. -/
theorem passes_len : ∀ (ent : String) (pk : Nat) (rels : RelList) (ctr ctr' : Nat),
    (planBelongs ent rels ctr).1.length + (planOwned ent pk rels ctr').1.length ≤ psizeR rels
  | ent, pk, RelList.nil, ctr, ctr' => by
    simp [planBelongs, planOwned, psizeR]
  | ent, pk, RelList.cons nm cs rest, ctr, ctr' => by
    rcases hs : schemaRel ent nm with _ | r
    · rw [planBelongs_cons_none ent nm cs rest ctr hs,
        planOwned_cons_none ent nm pk cs rest ctr' hs]
      have h := passes_len ent pk rest ctr ctr'
      simp only [psizeR]
      omega
    · rcases hk : r.kind with _ | _ | _
      · rw [planBelongs_cons_skip ent nm r cs rest ctr hs (by rw [hk]; intro hx; cases hx),
          planOwned_cons_has ent nm r pk cs rest ctr' hs hk]
        have h1 := planHasMany_len r pk cs ctr'
        have h2 := passes_len ent pk rest ctr (planHasMany r pk cs ctr').2
        simp only [psizeR, List.length_append]
        omega
      · rcases cs with _ | ⟨c, cs'⟩
        · rw [planBelongs_cons_nil ent nm r rest ctr hs hk,
            planOwned_cons_belongs ent nm r pk PList.nil rest ctr' hs hk]
          have h := passes_len ent pk rest ctr ctr'
          simp only [psizeR, psizeL]
          omega
        · rcases cs' with _ | ⟨d, ds⟩
          · rw [planBelongs_cons_single ent nm r c rest ctr hs hk,
              planOwned_cons_belongs ent nm r pk (PList.cons c PList.nil) rest ctr' hs hk]
            have h1 := planNode_len r.target [] c ctr
            have h2 := passes_len ent pk rest (planNode r.target [] c ctr).2.2 ctr'
            simp only [psizeR, psizeL, List.length_append]
            omega
          · rw [planBelongs_cons_multi ent nm r c d ds rest ctr hs hk,
              planOwned_cons_belongs ent nm r pk (PList.cons c (PList.cons d ds)) rest ctr' hs hk]
            have h := passes_len ent pk rest ctr ctr'
            simp only [psizeR, psizeL]
            omega
      · rw [planBelongs_cons_skip ent nm r cs rest ctr hs (by rw [hk]; intro hx; cases hx),
          planOwned_cons_mm ent nm r pk cs rest ctr' hs hk]
        have h1 := planPairings_len r pk cs ctr'
        have h2 := passes_len ent pk rest ctr (planPairings r pk cs ctr').2
        simp only [psizeR, List.length_append]
        omega

/-- Bound for the children of a `HasMany` entry. -/
theorem planHasMany_len : ∀ (r : Rel) (pk : Nat) (cs : PList) (ctr : Nat),
    (planHasMany r pk cs ctr).1.length ≤ psizeL cs
  | r, pk, PList.nil, ctr => by simp [planHasMany, psizeL]
  | r, pk, PList.cons c cs, ctr => by
    have h1 := planNode_len r.target [(r.toCol, Value.num pk)] c ctr
    have h2 := planHasMany_len r pk cs (planNode r.target [(r.toCol, Value.num pk)] c ctr).2.2
    simp only [planHasMany, psizeL, List.length_append]
    omega

/-- Bound for the pairings of a `ManyToMany` entry. -/
theorem planPairings_len : ∀ (r : Rel) (pk : Nat) (cs : PList) (ctr : Nat),
    (planPairings r pk cs ctr).1.length ≤ psizeL cs
  | r, pk, PList.nil, ctr => by simp [planPairings, psizeL]
  | r, pk, PList.cons c cs, ctr => by
    have h1 := planNode_len r.target [] c ctr
    have h2 := planPairings_len r pk cs ((planNode r.target [] c ctr).2.2 + 1)
    simp only [planPairings, psizeL, List.length_append, List.length_cons]
    omega
end

/-- C9: graph-insert planning terminates on every payload — even over the
cyclic `Person.parent`/`Person.children` schema the planner recurses on the
literal nesting of the payload instance, so every payload's plan is a finite
statement list bounded by the payload's own size; and when a node's own
identity reappears as its own descendant, planning fails with
`CyclicPayloadError` and no statement is issued, while acyclic payloads
plan normally. -/
theorem planning_total_and_cyclic_detected :
    (∀ (ent : String) (extra : List (String × Value)) (p : Payload) (ctr : Nat),
      (planNode ent extra p ctr).1.length ≤ psizeP p) ∧
    (∀ (ent : String) (p : Payload), cyclicP ent [] p = true →
      planGraph ent p = Except.error PlanError.cyclicPayload) ∧
    (∀ (ent : String) (p : Payload), cyclicP ent [] p = false →
      planGraph ent p = Except.ok (planNode ent [] p 1).1) := by
  refine ⟨planNode_len, ?_, ?_⟩
  · intro ent p h
    unfold planGraph
    rw [h]
    rfl
  · intro ent p h
    unfold planGraph
    rw [h]
    rfl

/-- C9 witness: the pathological payload `Person {id 1, children [Person
{id 1}]}` — its own identity reappears as its own descendant — is detected
as cyclic and planning fails with `CyclicPayloadError`. -/
theorem planning_total_and_cyclic_detected_witness :
    cyclicP "Person" []
      (Payload.node [("id", Value.num 1)]
        (RelList.cons "children"
          (PList.cons (Payload.node [("id", Value.num 1)] RelList.nil) PList.nil)
          RelList.nil)) = true ∧
    planGraph "Person"
      (Payload.node [("id", Value.num 1)]
        (RelList.cons "children"
          (PList.cons (Payload.node [("id", Value.num 1)] RelList.nil) PList.nil)
          RelList.nil)) = Except.error PlanError.cyclicPayload :=
  ⟨by decide, planning_total_and_cyclic_detected.2.1 "Person"
    (Payload.node [("id", Value.num 1)]
      (RelList.cons "children"
        (PList.cons (Payload.node [("id", Value.num 1)] RelList.nil) PList.nil)
        RelList.nil)) (by decide)⟩

/-! ### BelongsToOne ordering (C4) -/

/-- Wherever a `BelongsToOne` entry occurs among a node's relation entries,
the belongs pass plans the child's whole subplan inside its output and
records the foreign-key backfill pair carrying the child's generated key. -/
theorem planBelongs_mem (ent nm : String) (r : Rel) (c : Payload)
    (hs : schemaRel ent nm = some r) (hk : r.kind = RelKind.belongsToOne) :
    ∀ (rels : RelList) (cs0 : PList), RelMem nm cs0 rels →
    cs0 = PList.cons c PList.nil → ∀ ctr : Nat,
    ∃ ctr2 l1 l2,
      (planBelongs ent rels ctr).1 = l1 ++ (planNode r.target [] c ctr2).1 ++ l2 ∧
      (r.fromCol, Value.num (planNode r.target [] c ctr2).2.1) ∈ (planBelongs ent rels ctr).2.1 := by
  intro rels cs0 hm
  induction hm with
  | head cs2 rest =>
    intro hcs ctr
    subst hcs
    rw [planBelongs_cons_single ent nm r c rest ctr hs hk]
    exact ⟨ctr, [], (planBelongs ent rest (planNode r.target [] c ctr).2.2).1,
      by simp, by simp⟩
  | tail mn cs2 ds rest hm2 ih =>
    intro hcs ctr
    rcases hs2 : schemaRel ent mn with _ | r2
    · rw [planBelongs_cons_none ent mn ds rest ctr hs2]
      exact ih hcs ctr
    · rcases hk2 : r2.kind with _ | _ | _
      · rw [planBelongs_cons_skip ent mn r2 ds rest ctr hs2 (by rw [hk2]; intro hx; cases hx)]
        exact ih hcs ctr
      · rcases ds with _ | ⟨d, ds'⟩
        · rw [planBelongs_cons_nil ent mn r2 rest ctr hs2 hk2]
          exact ih hcs ctr
        · rcases ds' with _ | ⟨e, es⟩
          · rw [planBelongs_cons_single ent mn r2 d rest ctr hs2 hk2]
            obtain ⟨ctr2, l1, l2, h1, h2⟩ := ih hcs (planNode r2.target [] d ctr).2.2
            refine ⟨ctr2, (planNode r2.target [] d ctr).1 ++ l1, l2, ?_, ?_⟩
            · simp only [h1, List.append_assoc]
            · simp only [List.mem_cons]
              exact Or.inr h2
          · rw [planBelongs_cons_multi ent mn r2 d e es rest ctr hs2 hk2]
            exact ih hcs ctr
      · rw [planBelongs_cons_skip ent mn r2 ds rest ctr hs2 (by rw [hk2]; intro hx; cases hx)]
        exact ih hcs ctr

/-- One-step unfolding of a node's plan into belongs pass, self insert and
owned pass. -/
theorem planNode_node (ent : String) (extra fields : List (String × Value))
    (rels : RelList) (ctr : Nat) :
    planNode ent extra (Payload.node fields rels) ctr =
      ((planBelongs ent rels ctr).1 ++
        InsertOp.mk ent (planBelongs ent rels ctr).2.2
          (fields ++ extra ++ (planBelongs ent rels ctr).2.1) ::
        (planOwned ent (planBelongs ent rels ctr).2.2 rels
          ((planBelongs ent rels ctr).2.2 + 1)).1,
       (planBelongs ent rels ctr).2.2,
       (planOwned ent (planBelongs ent rels ctr).2.2 rels
         ((planBelongs ent rels ctr).2.2 + 1)).2) := by
  rw [planNode]

/-- C4: for every Graph Payload containing a `BelongsToOne` child (such as
the `parent` relation of `Person`), the planned insert statement for the
child strictly precedes the insert statement for its parent node in the
Insert Plan, and after planning the parent's foreign-key field equals the
key generated for the child. -/
theorem belongsToOne_child_before_parent (ent nm : String) (r : Rel) (c : Payload)
    (fields extra : List (String × Value)) (rels : RelList) (ctr : Nat)
    (hs : schemaRel ent nm = some r) (hk : r.kind = RelKind.belongsToOne)
    (hm : RelMem nm (PList.cons c PList.nil) rels) :
    ∃ i j cop pop, i < j ∧
      ((planNode ent extra (Payload.node fields rels) ctr).1).get? i = some cop ∧
      ((planNode ent extra (Payload.node fields rels) ctr).1).get? j = some pop ∧
      cop.table = r.target ∧ pop.table = ent ∧
      pop.key = (planNode ent extra (Payload.node fields rels) ctr).2.1 ∧
      (r.fromCol, Value.num cop.key) ∈ pop.row := by
  obtain ⟨ctr2, l1, l2, hb1, hb2⟩ :=
    planBelongs_mem ent nm r c hs hk rels (PList.cons c PList.nil) hm rfl ctr
  obtain ⟨m1, crow, m2, hcself⟩ := planNode_self r.target [] c ctr2
  have hplan := planNode_node ent extra fields rels ctr
  refine ⟨(l1 ++ m1).length, (planBelongs ent rels ctr).1.length,
    InsertOp.mk r.target (planNode r.target [] c ctr2).2.1 crow,
    InsertOp.mk ent (planBelongs ent rels ctr).2.2
      (fields ++ extra ++ (planBelongs ent rels ctr).2.1),
    ?_, ?_, ?_, rfl, rfl, by rw [hplan], ?_⟩
  · rw [hb1, hcself]
    simp only [List.length_append, List.length_cons]
    omega
  · have hshape : (planNode ent extra (Payload.node fields rels) ctr).1 =
        (l1 ++ m1) ++
        InsertOp.mk r.target (planNode r.target [] c ctr2).2.1 crow ::
        (m2 ++ (l2 ++
          InsertOp.mk ent (planBelongs ent rels ctr).2.2
            (fields ++ extra ++ (planBelongs ent rels ctr).2.1) ::
          (planOwned ent (planBelongs ent rels ctr).2.2 rels
            ((planBelongs ent rels ctr).2.2 + 1)).1)) := by
      rw [hplan]
      simp only [hb1, hcself, List.append_assoc, List.cons_append]
    rw [hshape]
    exact get_append_cons _ _ _
  · have hshape2 : (planNode ent extra (Payload.node fields rels) ctr).1 =
        (planBelongs ent rels ctr).1 ++
        InsertOp.mk ent (planBelongs ent rels ctr).2.2
          (fields ++ extra ++ (planBelongs ent rels ctr).2.1) ::
        (planOwned ent (planBelongs ent rels ctr).2.2 rels
          ((planBelongs ent rels ctr).2.2 + 1)).1 := by
      rw [hplan]
    rw [hshape2]
    exact get_append_cons _ _ _
  · simp [hb2]

/-- C4 witness: planning the payload `Person {firstName Kid, parent [Person
{firstName Dad}]}` — the `parent` relation of `Person` is `BelongsToOne`. -/
theorem belongsToOne_child_before_parent_witness :
    ∃ i j cop pop, i < j ∧
      ((planNode "Person" []
        (Payload.node [("firstName", Value.str "Kid")]
          (RelList.cons "parent"
            (PList.cons (Payload.node [("firstName", Value.str "Dad")] RelList.nil) PList.nil)
            RelList.nil)) 1).1).get? i = some cop ∧
      ((planNode "Person" []
        (Payload.node [("firstName", Value.str "Kid")]
          (RelList.cons "parent"
            (PList.cons (Payload.node [("firstName", Value.str "Dad")] RelList.nil) PList.nil)
            RelList.nil)) 1).1).get? j = some pop ∧
      cop.table = (Rel.mk RelKind.belongsToOne "Person" "parentId" "id" "" "" "").target ∧
      pop.table = "Person" ∧
      pop.key = (planNode "Person" []
        (Payload.node [("firstName", Value.str "Kid")]
          (RelList.cons "parent"
            (PList.cons (Payload.node [("firstName", Value.str "Dad")] RelList.nil) PList.nil)
            RelList.nil)) 1).2.1 ∧
      ((Rel.mk RelKind.belongsToOne "Person" "parentId" "id" "" "" "").fromCol,
        Value.num cop.key) ∈ pop.row :=
  belongsToOne_child_before_parent "Person" "parent"
    (Rel.mk RelKind.belongsToOne "Person" "parentId" "id" "" "" "")
    (Payload.node [("firstName", Value.str "Dad")] RelList.nil)
    [("firstName", Value.str "Kid")] [] _ 1
    (by decide) rfl
    (RelMem.head "parent"
      (PList.cons (Payload.node [("firstName", Value.str "Dad")] RelList.nil) PList.nil)
      RelList.nil)

/-! ### ManyToMany through rows (C5) -/

/-- Every relation of the registry targets an entity table. -/
theorem schemaRel_target_good (ent nm : String) (r : Rel)
    (hs : schemaRel ent nm = some r) : goodEnt r.target = true := by
  unfold schemaRel at hs
  split_ifs at hs
  all_goals first
    | exact Option.noConfusion hs
    | (obtain rfl := Option.some.inj hs; decide)

/-- Every `ManyToMany` relation of the registry goes through the
`Person_Movie` table. -/
theorem schemaRel_m2m_through (ent nm : String) (r : Rel)
    (hs : schemaRel ent nm = some r) (hk : r.kind = RelKind.manyToMany) :
    r.thTable = "Person_Movie" := by
  unfold schemaRel at hs
  split_ifs at hs
  all_goals first
    | exact Option.noConfusion hs
    | (obtain rfl := Option.some.inj hs; first | decide | exact absurd hk (by decide))

/-- No entity table is the through table. -/
theorem goodEnt_not_pm (e : String) (h : goodEnt e = true) :
    (e == "Person_Movie") = false := by
  simp only [goodEnt, Bool.or_eq_true, beq_iff_eq] at h
  rcases h with (h | h) | h <;> subst h <;> decide

/-- `countTable` distributes over list append. -/
theorem countTable_append (a b : List InsertOp) (t : String) :
    countTable (a ++ b) t = countTable a t + countTable b t := by
  simp [countTable, List.countP_append]

/-- A statement for a different table does not change the count. -/
theorem countTable_cons_ne (o : InsertOp) (b : List InsertOp) (t : String)
    (h : (o.table == t) = false) : countTable (o :: b) t = countTable b t := by
  simp [countTable, List.countP_cons, h]

/-- A statement for the counted table adds one. -/
theorem countTable_cons_eq (o : InsertOp) (b : List InsertOp) (t : String)
    (h : (o.table == t) = true) : countTable (o :: b) t = countTable b t + 1 := by
  simp [countTable, List.countP_cons, h]

/-! Step equations for the pair-occurrence count. -/

theorem m2mCountB_cons_none (ent nm : String) (cs : PList) (rest : RelList)
    (hs : schemaRel ent nm = none) :
    m2mCountB ent (RelList.cons nm cs rest) = m2mCountB ent rest := by
  rw [m2mCountB, hs]
  simp

theorem m2mCountB_cons_skip (ent nm : String) (r : Rel) (cs : PList) (rest : RelList)
    (hs : schemaRel ent nm = some r) (hk : ¬ r.kind = RelKind.belongsToOne) :
    m2mCountB ent (RelList.cons nm cs rest) = m2mCountB ent rest := by
  obtain ⟨k, tg, fc, tc, tt, tf, tto⟩ := r
  cases k with
  | belongsToOne => exact absurd rfl hk
  | hasMany => rw [m2mCountB, hs]; simp
  | manyToMany => rw [m2mCountB, hs]; simp

theorem m2mCountB_cons_single (ent nm : String) (r : Rel) (c : Payload) (rest : RelList)
    (hs : schemaRel ent nm = some r) (hk : r.kind = RelKind.belongsToOne) :
    m2mCountB ent (RelList.cons nm (PList.cons c PList.nil) rest) =
      m2mCountP r.target c + m2mCountB ent rest := by
  obtain ⟨k, tg, fc, tc, tt, tf, tto⟩ := r
  cases hk
  rw [m2mCountB, hs]

theorem m2mCountB_cons_nil (ent nm : String) (r : Rel) (rest : RelList)
    (hs : schemaRel ent nm = some r) (hk : r.kind = RelKind.belongsToOne) :
    m2mCountB ent (RelList.cons nm PList.nil rest) = m2mCountB ent rest := by
  obtain ⟨k, tg, fc, tc, tt, tf, tto⟩ := r
  cases hk
  rw [m2mCountB, hs]
  simp

theorem m2mCountB_cons_multi (ent nm : String) (r : Rel) (c d : Payload) (ds : PList)
    (rest : RelList)
    (hs : schemaRel ent nm = some r) (hk : r.kind = RelKind.belongsToOne) :
    m2mCountB ent (RelList.cons nm (PList.cons c (PList.cons d ds)) rest) =
      m2mCountB ent rest := by
  obtain ⟨k, tg, fc, tc, tt, tf, tto⟩ := r
  cases hk
  rw [m2mCountB, hs]
  simp

theorem m2mCountO_cons_none (ent nm : String) (cs : PList) (rest : RelList)
    (hs : schemaRel ent nm = none) :
    m2mCountO ent (RelList.cons nm cs rest) = m2mCountO ent rest := by
  rw [m2mCountO, hs]
  simp

theorem m2mCountO_cons_belongs (ent nm : String) (r : Rel) (cs : PList) (rest : RelList)
    (hs : schemaRel ent nm = some r) (hk : r.kind = RelKind.belongsToOne) :
    m2mCountO ent (RelList.cons nm cs rest) = m2mCountO ent rest := by
  obtain ⟨k, tg, fc, tc, tt, tf, tto⟩ := r
  cases hk
  rw [m2mCountO, hs]
  simp

theorem m2mCountO_cons_has (ent nm : String) (r : Rel) (cs : PList) (rest : RelList)
    (hs : schemaRel ent nm = some r) (hk : r.kind = RelKind.hasMany) :
    m2mCountO ent (RelList.cons nm cs rest) =
      m2mCountHM r.target cs + m2mCountO ent rest := by
  obtain ⟨k, tg, fc, tc, tt, tf, tto⟩ := r
  cases hk
  rw [m2mCountO, hs]

theorem m2mCountO_cons_mm (ent nm : String) (r : Rel) (cs : PList) (rest : RelList)
    (hs : schemaRel ent nm = some r) (hk : r.kind = RelKind.manyToMany) :
    m2mCountO ent (RelList.cons nm cs rest) =
      m2mCountMM r.target cs + m2mCountO ent rest := by
  obtain ⟨k, tg, fc, tc, tt, tf, tto⟩ := r
  cases hk
  rw [m2mCountO, hs]

mutual
/-- The plan of a node contains exactly as many `Person_Movie` statements as
the payload has `ManyToMany` endpoint-pair occurrences. -/
theorem countNode_pm : ∀ (ent : String) (extra : List (String × Value)) (p : Payload) (ctr : Nat),
    goodEnt ent = true →
    countTable (planNode ent extra p ctr).1 "Person_Movie" = m2mCountP ent p
  | ent, extra, Payload.node fields rels, ctr => by
    intro hg
    rw [planNode_node, m2mCountP]
    dsimp only
    rw [countTable_append, countTable_cons_ne _ _ _ (goodEnt_not_pm ent hg)]
    rw [countB_pm ent rels ctr]
    rw [countO_pm ent (planBelongs ent rels ctr).2.2 rels ((planBelongs ent rels ctr).2.2 + 1)]

/-- Through-row count of the belongs pass. -/
theorem countB_pm : ∀ (ent : String) (rels : RelList) (ctr : Nat),
    countTable (planBelongs ent rels ctr).1 "Person_Movie" = m2mCountB ent rels
  | ent, RelList.nil, ctr => by
    rw [planBelongs, m2mCountB]
    rfl
  | ent, RelList.cons nm cs rest, ctr => by
    rcases hs : schemaRel ent nm with _ | r
    · rw [planBelongs_cons_none ent nm cs rest ctr hs, m2mCountB_cons_none ent nm cs rest hs]
      exact countB_pm ent rest ctr
    · rcases hk : r.kind with _ | _ | _
      · rw [planBelongs_cons_skip ent nm r cs rest ctr hs (by rw [hk]; intro hx; cases hx),
          m2mCountB_cons_skip ent nm r cs rest hs (by rw [hk]; intro hx; cases hx)]
        exact countB_pm ent rest ctr
      · rcases cs with _ | ⟨c, cs'⟩
        · rw [planBelongs_cons_nil ent nm r rest ctr hs hk,
            m2mCountB_cons_nil ent nm r rest hs hk]
          exact countB_pm ent rest ctr
        · rcases cs' with _ | ⟨d, ds⟩
          · rw [planBelongs_cons_single ent nm r c rest ctr hs hk,
              m2mCountB_cons_single ent nm r c rest hs hk]
            rw [countTable_append]
            rw [countNode_pm r.target [] c ctr (schemaRel_target_good ent nm r hs)]
            rw [countB_pm ent rest (planNode r.target [] c ctr).2.2]
          · rw [planBelongs_cons_multi ent nm r c d ds rest ctr hs hk,
              m2mCountB_cons_multi ent nm r c d ds rest hs hk]
            exact countB_pm ent rest ctr
      · rw [planBelongs_cons_skip ent nm r cs rest ctr hs (by rw [hk]; intro hx; cases hx),
          m2mCountB_cons_skip ent nm r cs rest hs (by rw [hk]; intro hx; cases hx)]
        exact countB_pm ent rest ctr

/-- Through-row count of the owned pass. -/
theorem countO_pm : ∀ (ent : String) (pk : Nat) (rels : RelList) (ctr : Nat),
    countTable (planOwned ent pk rels ctr).1 "Person_Movie" = m2mCountO ent rels
  | ent, pk, RelList.nil, ctr => by
    rw [planOwned, m2mCountO]
    rfl
  | ent, pk, RelList.cons nm cs rest, ctr => by
    rcases hs : schemaRel ent nm with _ | r
    · rw [planOwned_cons_none ent nm pk cs rest ctr hs, m2mCountO_cons_none ent nm cs rest hs]
      exact countO_pm ent pk rest ctr
    · rcases hk : r.kind with _ | _ | _
      · rw [planOwned_cons_has ent nm r pk cs rest ctr hs hk,
          m2mCountO_cons_has ent nm r cs rest hs hk]
        rw [countTable_append]
        rw [countHM_pm r pk cs ctr (schemaRel_target_good ent nm r hs)]
        rw [countO_pm ent pk rest (planHasMany r pk cs ctr).2]
      · rw [planOwned_cons_belongs ent nm r pk cs rest ctr hs hk,
          m2mCountO_cons_belongs ent nm r cs rest hs hk]
        exact countO_pm ent pk rest ctr
      · rw [planOwned_cons_mm ent nm r pk cs rest ctr hs hk,
          m2mCountO_cons_mm ent nm r cs rest hs hk]
        rw [countTable_append]
        rw [countMM_pm r pk cs ctr (schemaRel_target_good ent nm r hs)
          (schemaRel_m2m_through ent nm r hs hk)]
        rw [countO_pm ent pk rest (planPairings r pk cs ctr).2]

/-- Through-row count of a `HasMany` entry's children. -/
theorem countHM_pm : ∀ (r : Rel) (pk : Nat) (cs : PList) (ctr : Nat),
    goodEnt r.target = true →
    countTable (planHasMany r pk cs ctr).1 "Person_Movie" = m2mCountHM r.target cs
  | r, pk, PList.nil, ctr => by
    intro hg
    rw [planHasMany, m2mCountHM]
    rfl
  | r, pk, PList.cons c cs, ctr => by
    intro hg
    rw [planHasMany, m2mCountHM]
    dsimp only
    rw [countTable_append]
    rw [countNode_pm r.target [(r.toCol, Value.num pk)] c ctr hg]
    rw [countHM_pm r pk cs (planNode r.target [(r.toCol, Value.num pk)] c ctr).2.2 hg]

/-- Through-row count of a `ManyToMany` entry's pairings: exactly one per
child pairing. -/
theorem countMM_pm : ∀ (r : Rel) (pk : Nat) (cs : PList) (ctr : Nat),
    goodEnt r.target = true → r.thTable = "Person_Movie" →
    countTable (planPairings r pk cs ctr).1 "Person_Movie" = m2mCountMM r.target cs
  | r, pk, PList.nil, ctr => by
    intro hg hpm
    rw [planPairings, m2mCountMM]
    rfl
  | r, pk, PList.cons c cs, ctr => by
    intro hg hpm
    rw [planPairings, m2mCountMM]
    dsimp only
    rw [countTable_append]
    have hth : ((InsertOp.mk r.thTable (planNode r.target [] c ctr).2.2
        [(r.thFrom, Value.num pk), (r.thTo, Value.num (planNode r.target [] c ctr).2.1)]).table
          == "Person_Movie") = true := by
      simp [hpm]
    rw [countTable_cons_eq _ _ _ hth]
    rw [countNode_pm r.target [] c ctr hg]
    rw [countMM_pm r pk cs ((planNode r.target [] c ctr).2.2 + 1) hg hpm]
    omega
end

/-- Each child occurring under a `ManyToMany` entry is planned inside the
pairings pass, immediately followed by its single through-table row carrying
the parent's key and the child's generated key. -/
theorem planPairings_mem (r : Rel) (pk : Nat) (c : Payload) :
    ∀ (cs : PList) (ctr : Nat), PMem c cs →
    ∃ ctr2 l1 l2, (planPairings r pk cs ctr).1 =
      l1 ++ (planNode r.target [] c ctr2).1 ++
        InsertOp.mk r.thTable (planNode r.target [] c ctr2).2.2
          [(r.thFrom, Value.num pk), (r.thTo, Value.num (planNode r.target [] c ctr2).2.1)] :: l2 := by
  intro cs ctr hm
  induction hm generalizing ctr with
  | head cs2 =>
    refine ⟨ctr, [], (planPairings r pk cs2 ((planNode r.target [] c ctr).2.2 + 1)).1, ?_⟩
    rw [planPairings]
    simp
  | tail d cs2 hm2 ih =>
    obtain ⟨ctr2, l1, l2, h1⟩ := ih ((planNode r.target [] d ctr).2.2 + 1)
    refine ⟨ctr2, (planNode r.target [] d ctr).1 ++
      InsertOp.mk r.thTable (planNode r.target [] d ctr).2.2
        [(r.thFrom, Value.num pk), (r.thTo, Value.num (planNode r.target [] d ctr).2.1)] :: l1,
      l2, ?_⟩
    rw [planPairings]
    dsimp only
    rw [h1]
    simp [List.append_assoc]

/-- Wherever a `ManyToMany` entry occurs among a node's relation entries,
the owned pass plans its whole pairings block inside its output. -/
theorem planOwned_mem_mm (ent nm : String) (r : Rel) (cs : PList)
    (hs : schemaRel ent nm = some r) (hk : r.kind = RelKind.manyToMany) :
    ∀ (rels : RelList) (cs0 : PList), RelMem nm cs0 rels → cs0 = cs →
    ∀ (pk ctr : Nat),
    ∃ ctr2 l1 l2, (planOwned ent pk rels ctr).1 =
      l1 ++ (planPairings r pk cs ctr2).1 ++ l2 := by
  intro rels cs0 hm
  induction hm with
  | head cs2 rest =>
    intro hcs pk ctr
    subst hcs
    rw [planOwned_cons_mm ent nm r pk cs2 rest ctr hs hk]
    exact ⟨ctr, [], (planOwned ent pk rest (planPairings r pk cs2 ctr).2).1, by simp⟩
  | tail mn cs2 ds rest hm2 ih =>
    intro hcs pk ctr
    rcases hs2 : schemaRel ent mn with _ | r2
    · rw [planOwned_cons_none ent mn pk ds rest ctr hs2]
      exact ih hcs pk ctr
    · rcases hk2 : r2.kind with _ | _ | _
      · rw [planOwned_cons_has ent mn r2 pk ds rest ctr hs2 hk2]
        obtain ⟨ctr2, l1, l2, h1⟩ := ih hcs pk (planHasMany r2 pk ds ctr).2
        exact ⟨ctr2, (planHasMany r2 pk ds ctr).1 ++ l1, l2,
          by rw [h1]; simp [List.append_assoc]⟩
      · rw [planOwned_cons_belongs ent mn r2 pk ds rest ctr hs2 hk2]
        exact ih hcs pk ctr
      · rw [planOwned_cons_mm ent mn r2 pk ds rest ctr hs2 hk2]
        obtain ⟨ctr2, l1, l2, h1⟩ := ih hcs pk (planPairings r2 pk ds ctr).2
        exact ⟨ctr2, (planPairings r2 pk ds ctr).1 ++ l1, l2,
          by rw [h1]; simp [List.append_assoc]⟩

/-- C5: for every Graph Payload with `ManyToMany` entries, the Insert Plan
contains exactly one through-table row per endpoint-pair occurrence (the
plan-wide `Person_Movie` count equals the payload's pair-occurrence count),
and each pairing's through row carries both endpoints' generated keys — the
owning node's key and the child's key — as its two foreign-key values. -/
theorem manyToMany_through_rows (fields extra : List (String × Value)) (rels : RelList)
    (cs : PList) (c : Payload) (ctr : Nat)
    (hm : RelMem "movies" cs rels) (hc : PMem c cs) :
    (∀ (p : Payload) (extra2 : List (String × Value)) (ctr2 : Nat),
      countTable (planNode "Person" extra2 p ctr2).1 "Person_Movie" = m2mCountP "Person" p) ∧
    ∃ cop thOp,
      cop ∈ (planNode "Person" extra (Payload.node fields rels) ctr).1 ∧
      thOp ∈ (planNode "Person" extra (Payload.node fields rels) ctr).1 ∧
      cop.table = "Movie" ∧ thOp.table = "Person_Movie" ∧
      thOp.row = [("personId",
          Value.num (planNode "Person" extra (Payload.node fields rels) ctr).2.1),
        ("movieId", Value.num cop.key)] := by
  refine ⟨fun p e2 c2 => countNode_pm "Person" e2 p c2 (by decide), ?_⟩
  obtain ⟨ctr2, l1, l2, ho⟩ := planOwned_mem_mm "Person" "movies"
    (Rel.mk RelKind.manyToMany "Movie" "id" "id" "Person_Movie" "personId" "movieId") cs
    (by decide) rfl rels cs hm rfl
    (planBelongs "Person" rels ctr).2.2 ((planBelongs "Person" rels ctr).2.2 + 1)
  obtain ⟨ctr3, m1, m2, hp⟩ := planPairings_mem
    (Rel.mk RelKind.manyToMany "Movie" "id" "id" "Person_Movie" "personId" "movieId")
    (planBelongs "Person" rels ctr).2.2 c cs ctr2 hc
  dsimp only at hp
  obtain ⟨n1, crow, n2, hcself⟩ := planNode_self "Movie" [] c ctr3
  have hkey : (planNode "Person" extra (Payload.node fields rels) ctr).2.1 =
      (planBelongs "Person" rels ctr).2.2 := by
    rw [planNode_node]
  have hmem : ∀ x : InsertOp,
      x ∈ (planOwned "Person" (planBelongs "Person" rels ctr).2.2 rels
        ((planBelongs "Person" rels ctr).2.2 + 1)).1 →
      x ∈ (planNode "Person" extra (Payload.node fields rels) ctr).1 := by
    intro x hx
    rw [planNode_node]
    exact List.mem_append_right _ (List.mem_cons_of_mem _ hx)
  refine ⟨InsertOp.mk "Movie" (planNode "Movie" [] c ctr3).2.1 crow,
    InsertOp.mk "Person_Movie" (planNode "Movie" [] c ctr3).2.2
      [("personId", Value.num (planBelongs "Person" rels ctr).2.2),
       ("movieId", Value.num (planNode "Movie" [] c ctr3).2.1)],
    ?_, ?_, rfl, rfl, ?_⟩
  · apply hmem
    rw [ho, hp, hcself]
    simp
  · apply hmem
    rw [ho, hp]
    simp
  · rw [hkey]

/-- C5 witness: planning `Person {firstName Ann, movies [Movie {name
Gladiator}]}` — the `movies` relation of `Person` is `ManyToMany` through
`Person_Movie`. -/
theorem manyToMany_through_rows_witness :
    (∀ (p : Payload) (extra2 : List (String × Value)) (ctr2 : Nat),
      countTable (planNode "Person" extra2 p ctr2).1 "Person_Movie" = m2mCountP "Person" p) ∧
    ∃ cop thOp,
      cop ∈ (planNode "Person" []
        (Payload.node [("firstName", Value.str "Ann")]
          (RelList.cons "movies"
            (PList.cons (Payload.node [("name", Value.str "Gladiator")] RelList.nil) PList.nil)
            RelList.nil)) 1).1 ∧
      thOp ∈ (planNode "Person" []
        (Payload.node [("firstName", Value.str "Ann")]
          (RelList.cons "movies"
            (PList.cons (Payload.node [("name", Value.str "Gladiator")] RelList.nil) PList.nil)
            RelList.nil)) 1).1 ∧
      cop.table = "Movie" ∧ thOp.table = "Person_Movie" ∧
      thOp.row = [("personId",
          Value.num (planNode "Person" []
            (Payload.node [("firstName", Value.str "Ann")]
              (RelList.cons "movies"
                (PList.cons (Payload.node [("name", Value.str "Gladiator")] RelList.nil) PList.nil)
                RelList.nil)) 1).2.1),
        ("movieId", Value.num cop.key)] :=
  manyToMany_through_rows [("firstName", Value.str "Ann")] []
    (RelList.cons "movies"
      (PList.cons (Payload.node [("name", Value.str "Gladiator")] RelList.nil) PList.nil)
      RelList.nil)
    (PList.cons (Payload.node [("name", Value.str "Gladiator")] RelList.nil) PList.nil)
    (Payload.node [("name", Value.str "Gladiator")] RelList.nil) 1
    (RelMem.head "movies"
      (PList.cons (Payload.node [("name", Value.str "Gladiator")] RelList.nil) PList.nil)
      RelList.nil)
    (PMem.head (Payload.node [("name", Value.str "Gladiator")] RelList.nil) PList.nil)

/-! ### Eager fetch grouping (C7) -/

/-- Boolean equality of naturals is symmetric. -/
theorem nat_beq_comm (a b : Nat) : (a == b) = (b == a) := by
  by_cases h : a = b
  · subst h
    rfl
  · rw [beq_eq_false_iff_ne.mpr h, beq_eq_false_iff_ne.mpr (Ne.symm h)]

/-- C7: for a root fetch returning any list of parents (with distinct keys)
and the single `HasMany`-level child query over those parents' key set:
every fetched child is attached to exactly one parent's relation array,
every parent without a matching child gets an empty array (never an error),
a parent's array from the one batched level query equals what its own
per-row query would return, and the fetch issues two queries (root plus one
per relation level) however many parents the root returned. -/
theorem eager_hasMany_grouping (persons : List PRow) (animals : List ARow)
    (hnd : (persons.map (fun p => p.id)).Nodup) :
    (∀ c ∈ fetchChildren animals (persons.map (fun p => p.id)),
      List.countP (fun pr => decide (c ∈ pr.2)) (eagerPets persons animals).1 = 1) ∧
    (∀ pr ∈ (eagerPets persons animals).1,
      (∀ a ∈ animals, ¬ a.ownerId = pr.1.id) → pr.2 = []) ∧
    (∀ p ∈ persons,
      (p, animals.filter (fun a => a.ownerId == p.id)) ∈ (eagerPets persons animals).1) ∧
    (eagerPets persons animals).2 = 2 := by
  refine ⟨?_, ?_, ?_, rfl⟩
  · intro c hc
    have hcm : c ∈ animals ∧ ((persons.map (fun p => p.id)).contains c.ownerId) = true := by
      simpa [fetchChildren] using hc
    have hmem : c.ownerId ∈ persons.map (fun p => p.id) := by
      simpa using hcm.2
    unfold eagerPets attachPets
    dsimp only
    rw [List.countP_map]
    have h1 : List.countP
        ((fun pr : PRow × List ARow => decide (c ∈ pr.2)) ∘
          (fun p => (p, (fetchChildren animals (persons.map (fun q => q.id))).filter
            (fun a => a.ownerId == p.id)))) persons =
        List.countP (fun p => c.ownerId == p.id) persons := by
      apply List.countP_congr
      intro p hp
      simp only [Function.comp_apply]
      by_cases h : c.ownerId = p.id
      · have : c ∈ (fetchChildren animals (persons.map (fun q => q.id))).filter
            (fun a => a.ownerId == p.id) := by
          rw [List.mem_filter]
          exact ⟨hc, by simp [h]⟩
        simp [this, h]
      · have : c ∉ (fetchChildren animals (persons.map (fun q => q.id))).filter
            (fun a => a.ownerId == p.id) := by
          rw [List.mem_filter]
          intro hx
          exact h (by simpa using hx.2)
        simp [this, h]
    rw [h1]
    have h2 : List.countP (fun p => c.ownerId == p.id) persons =
        List.countP (fun i => i == c.ownerId) (persons.map (fun p => p.id)) := by
      rw [List.countP_map]
      apply List.countP_congr
      intro p hp
      simp only [Function.comp_apply]
      rw [nat_beq_comm c.ownerId p.id]
    rw [h2]
    have h3 : List.countP (fun i => i == c.ownerId) (persons.map (fun p => p.id)) =
        List.count c.ownerId (persons.map (fun p => p.id)) := rfl
    rw [h3]
    exact List.count_eq_one_of_mem hnd hmem
  · intro pr hpr hno
    unfold eagerPets attachPets at hpr
    dsimp only at hpr
    rw [List.mem_map] at hpr
    obtain ⟨p, hp, rfl⟩ := hpr
    dsimp only at hno ⊢
    rw [List.filter_eq_nil_iff]
    intro a ha
    have ham : a ∈ animals := by
      have := List.mem_filter.mp ha
      exact this.1
    simp only [beq_iff_eq]
    exact hno a ham
  · intro p hp
    unfold eagerPets attachPets
    dsimp only
    rw [List.mem_map]
    refine ⟨p, hp, ?_⟩
    have hfil : (fetchChildren animals (persons.map (fun q => q.id))).filter
        (fun a => a.ownerId == p.id) = animals.filter (fun a => a.ownerId == p.id) := by
      unfold fetchChildren
      rw [List.filter_filter]
      apply List.filter_congr
      intro a ha
      by_cases h : a.ownerId = p.id
      · have hmm2 : p.id ∈ persons.map (fun q => q.id) := List.mem_map_of_mem _ hp
        have hcont : ((persons.map (fun q => q.id)).contains p.id) = true := by
          simpa using hmm2
        simp [h, hcont]
        exact ⟨p, hp, rfl⟩
      · simp [beq_eq_false_iff_ne.mpr h]
    rw [hfil]

/-- C7 witness: two parents (ids 1, 2) and one pet owned by parent 1. -/
theorem eager_hasMany_grouping_witness :
    (([PRow.mk 1 none "A", PRow.mk 2 none "B"].map (fun p => p.id)).Nodup) ∧
    ((∀ c ∈ fetchChildren [ARow.mk 1 1 "Rex" "dog"]
        ([PRow.mk 1 none "A", PRow.mk 2 none "B"].map (fun p => p.id)),
      List.countP (fun pr => decide (c ∈ pr.2))
        (eagerPets [PRow.mk 1 none "A", PRow.mk 2 none "B"] [ARow.mk 1 1 "Rex" "dog"]).1 = 1) ∧
    (∀ pr ∈ (eagerPets [PRow.mk 1 none "A", PRow.mk 2 none "B"] [ARow.mk 1 1 "Rex" "dog"]).1,
      (∀ a ∈ [ARow.mk 1 1 "Rex" "dog"], ¬ a.ownerId = pr.1.id) → pr.2 = []) ∧
    (∀ p ∈ [PRow.mk 1 none "A", PRow.mk 2 none "B"],
      (p, [ARow.mk 1 1 "Rex" "dog"].filter (fun a => a.ownerId == p.id)) ∈
        (eagerPets [PRow.mk 1 none "A", PRow.mk 2 none "B"] [ARow.mk 1 1 "Rex" "dog"]).1) ∧
    (eagerPets [PRow.mk 1 none "A", PRow.mk 2 none "B"] [ARow.mk 1 1 "Rex" "dog"]).2 = 2) :=
  ⟨by decide, eager_hasMany_grouping [PRow.mk 1 none "A", PRow.mk 2 none "B"]
    [ARow.mk 1 1 "Rex" "dog"] (by decide)⟩

/-! ### Relation-path parsing and validation (C6) -/

theorem parseItemF_zero (ts : List Tok) : parseItemF 0 ts = none := rfl

/-- One-step unfolding of the item parser at positive fuel. -/
theorem parseItemF_succ (fuel : Nat) (ts : List Tok) :
    parseItemF (fuel + 1) ts =
      match ts with
      | Tok.name s :: rest =>
        match rest with
        | Tok.dot :: rest2 =>
          match rest2 with
          | Tok.lb :: rest3 =>
            match parseListF fuel rest3 with
            | some (f, Tok.rb :: rest4) => some (RTree.node s f, rest4)
            | _ => none
          | _ =>
            match parseItemF fuel rest2 with
            | some (t, rest3) => some (RTree.node s (RForest.cons t RForest.nil), rest3)
            | _ => none
        | _ => some (RTree.node s RForest.nil, rest)
      | _ => none := rfl

theorem parseListF_zero (ts : List Tok) : parseListF 0 ts = none := rfl

/-- One-step unfolding of the list parser at positive fuel. -/
theorem parseListF_succ (fuel : Nat) (ts : List Tok) :
    parseListF (fuel + 1) ts =
      match parseItemF fuel ts with
      | some (t, Tok.comma :: rest) =>
        match parseListF fuel rest with
        | some (f, rest2) => some (RForest.cons t f, rest2)
        | _ => none
      | some (t, rest) => some (RForest.cons t RForest.nil, rest)
      | none => none := rfl

mutual
/-- Parser soundness: a successful item parse consumed a grammatical
item. -/
theorem parseItemF_sound : ∀ (fuel : Nat) (ts : List Tok) (t : RTree) (rest : List Tok),
    parseItemF fuel ts = some (t, rest) → ∃ us, ts = us ++ rest ∧ Gram true us
  | 0, ts, t, rest => by
    intro h
    rw [parseItemF_zero] at h
    cases h
  | fuel + 1, ts, t, rest => by
    intro h
    rw [parseItemF_succ] at h
    split at h
    next s rest0 =>
      split at h
      next rest2 =>
        split at h
        next rest3 =>
          split at h
          next f2 rest4 hpl =>
            simp only [Option.some.injEq, Prod.mk.injEq] at h
            obtain ⟨rfl, rfl⟩ := h
            obtain ⟨us2, hr3, hg⟩ := parseListF_sound fuel _ f2 (Tok.rb :: rest4) hpl
            refine ⟨Tok.name s :: Tok.dot :: Tok.lb :: us2 ++ [Tok.rb], ?_,
              Gram.bracket s us2 hg⟩
            rw [hr3]
            simp
          next hpl =>
            cases h
        next hne =>
          split at h
          next t2 rest3 hpi =>
            simp only [Option.some.injEq, Prod.mk.injEq] at h
            obtain ⟨rfl, rfl⟩ := h
            obtain ⟨us2, hr2, hg⟩ := parseItemF_sound fuel _ t2 rest3 hpi
            refine ⟨Tok.name s :: Tok.dot :: us2, ?_, Gram.descend s us2 hg⟩
            rw [hr2]
            simp
          next hpi =>
            cases h
      next hne2 =>
        simp only [Option.some.injEq, Prod.mk.injEq] at h
        obtain ⟨rfl, rfl⟩ := h
        exact ⟨[Tok.name s], rfl, Gram.leaf s⟩
    next hne =>
      cases h

/-- Parser soundness: a successful list parse consumed a grammatical
sibling list. -/
theorem parseListF_sound : ∀ (fuel : Nat) (ts : List Tok) (f : RForest) (rest : List Tok),
    parseListF fuel ts = some (f, rest) → ∃ us, ts = us ++ rest ∧ Gram false us
  | 0, ts, f, rest => by
    intro h
    rw [parseListF_zero] at h
    cases h
  | fuel + 1, ts, f, rest => by
    intro h
    rw [parseListF_succ] at h
    split at h
    next t2 restI hpi =>
      split at h
      next f2 rest2 hpl =>
        simp only [Option.some.injEq, Prod.mk.injEq] at h
        obtain ⟨rfl, rfl⟩ := h
        obtain ⟨us1, hts, hg1⟩ := parseItemF_sound fuel _ t2 (Tok.comma :: restI) hpi
        obtain ⟨us2, hri, hg2⟩ := parseListF_sound fuel _ f2 rest2 hpl
        refine ⟨us1 ++ Tok.comma :: us2, ?_, Gram.more us1 us2 hg1 hg2⟩
        rw [hts, hri]
        simp
      next hpl =>
        cases h
    next t2 restI hpi hne =>
      simp only [Option.some.injEq, Prod.mk.injEq] at h
      obtain ⟨rfl, rfl⟩ := h
      obtain ⟨us1, hts, hg1⟩ := parseItemF_sound fuel _ t2 restI hne
      exact ⟨us1, hts, Gram.single us1 hg1⟩
    next hpi =>
      cases h
end

/-- Every grammatical item starts with a name token. -/
theorem gram_true_starts (ts : List Tok) (h : Gram true ts) :
    ∃ s rest, ts = Tok.name s :: rest := by
  cases h with
  | leaf s => exact ⟨s, [], rfl⟩
  | descend s ts2 h2 => exact ⟨s, Tok.dot :: ts2, rfl⟩
  | bracket s ts2 h2 => exact ⟨s, Tok.dot :: Tok.lb :: ts2 ++ [Tok.rb], rfl⟩

/-- Every grammatical sibling list starts with a name token. -/
theorem gram_false_starts (ts : List Tok) (h : Gram false ts) :
    ∃ s rest, ts = Tok.name s :: rest := by
  cases h with
  | single h2 =>
    exact gram_true_starts ts (by assumption)
  | more ts2 us h2 h3 =>
    obtain ⟨s, r, hr⟩ := gram_true_starts ts2 h2
    exact ⟨s, r ++ Tok.comma :: us, by rw [hr]; rfl⟩

/-- Parser completeness: every grammatical item (resp. sibling list) is
parsed back exactly, leaving exactly the trailing tokens, whenever the
trailing tokens cannot extend it and the fuel covers twice its length. -/
theorem parse_complete : ∀ (b : Bool) (us : List Tok), Gram b us →
    ∀ (rest : List Tok) (fuel : Nat),
    (b = true → 2 * us.length + 1 ≤ fuel → rest.head? ≠ some Tok.dot →
      ∃ t, parseItemF fuel (us ++ rest) = some (t, rest)) ∧
    (b = false → 2 * us.length + 2 ≤ fuel → rest.head? ≠ some Tok.dot →
      rest.head? ≠ some Tok.comma →
      ∃ f, parseListF fuel (us ++ rest) = some (f, rest)) := by
  intro b us h
  induction h with
  | leaf s =>
    intro rest fuel
    constructor
    · intro _ hb hgd
      rcases fuel with _ | f
      · omega
      rw [parseItemF_succ]
      rcases rest with _ | ⟨tk, rest2⟩
      · exact ⟨RTree.node s RForest.nil, rfl⟩
      rcases tk with s2 | _ | _ | _ | _
      · exact ⟨RTree.node s RForest.nil, rfl⟩
      · exact absurd rfl hgd
      · exact ⟨RTree.node s RForest.nil, rfl⟩
      · exact ⟨RTree.node s RForest.nil, rfl⟩
      · exact ⟨RTree.node s RForest.nil, rfl⟩
    · intro hx
      cases hx
  | descend s ts hts ih =>
    intro rest fuel
    constructor
    · intro _ hb hgd
      rcases fuel with _ | f
      · omega
      rw [parseItemF_succ]
      obtain ⟨s2, ts2, rfl⟩ := gram_true_starts ts hts
      have hb2 : 2 * (Tok.name s2 :: ts2).length + 1 ≤ f := by
        simp only [List.length_cons] at hb ⊢
        omega
      obtain ⟨t2, hp⟩ := (ih rest f).1 rfl hb2 hgd
      simp only [List.cons_append] at hp ⊢
      rw [hp]
      exact ⟨RTree.node s (RForest.cons t2 RForest.nil), rfl⟩
    · intro hx
      cases hx
  | bracket s ts hts ih =>
    intro rest fuel
    constructor
    · intro _ hb hgd
      rcases fuel with _ | f
      · omega
      rw [parseItemF_succ]
      have hb2 : 2 * ts.length + 2 ≤ f := by
        simp only [List.length_cons, List.length_append] at hb
        omega
      obtain ⟨f2, hp⟩ := (ih (Tok.rb :: rest) f).2 rfl hb2 (by simp) (by simp)
      simp only [List.cons_append, List.append_assoc, List.singleton_append,
        List.nil_append] at hp ⊢
      rw [hp]
      exact ⟨RTree.node s f2, rfl⟩
    · intro hx
      cases hx
  | single ts hts ih =>
    intro rest fuel
    constructor
    · intro hx
      cases hx
    · intro _ hb hgd hgc
      rcases fuel with _ | f
      · omega
      rw [parseListF_succ]
      have hb2 : 2 * ts.length + 1 ≤ f := by omega
      obtain ⟨t2, hp⟩ := (ih rest f).1 rfl hb2 hgd
      rw [hp]
      rcases rest with _ | ⟨tk, rest2⟩
      · exact ⟨RForest.cons t2 RForest.nil, rfl⟩
      rcases tk with s2 | _ | _ | _ | _
      · exact ⟨RForest.cons t2 RForest.nil, rfl⟩
      · exact ⟨RForest.cons t2 RForest.nil, rfl⟩
      · exact absurd rfl hgc
      · exact ⟨RForest.cons t2 RForest.nil, rfl⟩
      · exact ⟨RForest.cons t2 RForest.nil, rfl⟩
  | more ts us2 hts hus ihT ihL =>
    intro rest fuel
    constructor
    · intro hx
      cases hx
    · intro _ hb hgd hgc
      rcases fuel with _ | f
      · omega
      rw [parseListF_succ]
      have hbT : 2 * ts.length + 1 ≤ f := by
        simp only [List.length_append, List.length_cons] at hb
        omega
      have hbL : 2 * us2.length + 2 ≤ f := by
        simp only [List.length_append, List.length_cons] at hb
        omega
      obtain ⟨t2, hp⟩ := (ihT (Tok.comma :: (us2 ++ rest)) f).1 rfl hbT (by simp)
      obtain ⟨f2, hp2⟩ := (ihL rest f).2 rfl hbL hgd hgc
      simp only [List.append_assoc, List.cons_append] at hp ⊢
      refine ⟨RForest.cons t2 f2, ?_⟩
      rw [hp]
      simp [hp2]

/-- One-step unfolding of the top-level parse on a bracketed stream. -/
theorem parseToks_lb (rest : List Tok) :
    parseToks (Tok.lb :: rest) =
      match parseListF (2 * rest.length + 2) rest with
      | some (f, [Tok.rb]) => some f
      | _ => none := rfl

/-- One-step unfolding of the top-level parse on an unbracketed stream. -/
theorem parseToks_not_lb (ts : List Tok) (h : ∀ rest, ts ≠ Tok.lb :: rest) :
    parseToks ts =
      match parseListF (2 * ts.length + 2) ts with
      | some (f, []) => some f
      | _ => none := by
  rcases ts with _ | ⟨tk, r⟩
  · rfl
  rcases tk with s | _ | _ | _ | _
  · rfl
  · rfl
  · rfl
  · exact absurd rfl (h r)
  · rfl

/-- A successful unbracketed top-level parse means the stream is a
grammatical sibling list. -/
theorem parseToks_some_of_not_lb (ts : List Tok) (hnl : ∀ rest, ts ≠ Tok.lb :: rest)
    (h : (parseToks ts).isSome = true) : Gram false ts := by
  rw [parseToks_not_lb ts hnl] at h
  rcases hp : parseListF (2 * ts.length + 2) ts with _ | ⟨f, r2⟩
  · rw [hp] at h
    simp at h
  · rw [hp] at h
    rcases r2 with _ | ⟨tk2, r3⟩
    · obtain ⟨us, hu, hg⟩ := parseListF_sound _ _ f [] hp
      rw [List.append_nil] at hu
      rw [hu]
      exact hg
    · simp at h

/-- C6 core equivalence at the token level: the top-level parse succeeds
exactly on syntactically well-formed streams. -/
theorem parseToks_isSome_iff (ts : List Tok) : (parseToks ts).isSome ↔ GExpr ts := by
  constructor
  · intro h
    rcases ts with _ | ⟨tk, rest⟩
    · exact absurd h (by decide)
    rcases tk with s | _ | _ | _ | _
    · exact Or.inl (parseToks_some_of_not_lb _ (by intro r hx; cases hx) h)
    · exact Or.inl (parseToks_some_of_not_lb _ (by intro r hx; cases hx) h)
    · exact Or.inl (parseToks_some_of_not_lb _ (by intro r hx; cases hx) h)
    · rw [parseToks_lb] at h
      rcases hp : parseListF (2 * rest.length + 2) rest with _ | ⟨f, r2⟩
      · rw [hp] at h
        simp at h
      · rw [hp] at h
        rcases r2 with _ | ⟨tk2, r3⟩
        · simp at h
        rcases tk2 with s2 | _ | _ | _ | _
        · simp at h
        · simp at h
        · simp at h
        · simp at h
        rcases r3 with _ | ⟨u, v⟩
        · obtain ⟨us, hu, hg⟩ := parseListF_sound _ _ f [Tok.rb] hp
          exact Or.inr ⟨us, hg, by rw [hu]; simp⟩
        · simp at h
    · exact Or.inl (parseToks_some_of_not_lb _ (by intro r hx; cases hx) h)
  · intro h
    rcases h with hg | ⟨us, hg, rfl⟩
    · obtain ⟨s, r, hts2⟩ := gram_false_starts ts hg
      subst hts2
      rw [parseToks_not_lb _ (by intro rr hx; cases hx)]
      obtain ⟨f, hp⟩ := (parse_complete false (Tok.name s :: r) hg []
        (2 * (Tok.name s :: r).length + 2)).2 rfl (by omega) (by simp) (by simp)
      rw [List.append_nil] at hp
      rw [hp]
      rfl
    · simp only [List.cons_append]
      rw [parseToks_lb]
      obtain ⟨f, hp⟩ := (parse_complete false us hg [Tok.rb]
        (2 * (us ++ [Tok.rb]).length + 2)).2 rfl
        (by simp [List.length_append]) (by simp) (by simp)
      rw [hp]
      rfl

/-- `find?` over an append scans the left part first. -/
theorem find_append {α : Type} (p : α → Bool) (a b : List α) :
    (a ++ b).find? p =
      match a.find? p with
      | some x => some x
      | none => b.find? p := by
  induction a with
  | nil => rfl
  | cons x xs ih =>
    by_cases hx : p x = true
    · simp [List.find?_cons, hx]
    · rw [Bool.not_eq_true] at hx
      simp [List.find?_cons, hx, ih]

/-- Mapping the empty prefix over a path list changes nothing. -/
theorem map_nil_append (ps : List (List String)) :
    ps.map (fun q => [] ++ q) = ps := by
  induction ps with
  | nil => rfl
  | cons h t ih => simp [ih]

mutual
/-- Node validation equals the first-disallowed-path characterization over
the node's preorder path list. -/
theorem valT_spec : ∀ (allow : List (List String)) (pre : List String) (t : RTree),
    valT allow pre t = valSpec allow ((pathsT t).map (fun q => pre ++ q))
  | allow, pre, RTree.node s cs => by
    rw [valT, pathsT]
    by_cases ha : allowedPath allow (pre ++ [s]) = true
    · rw [if_pos ha]
      rw [valF_spec allow (pre ++ [s]) cs]
      unfold valSpec
      simp only [List.map_cons, List.map_map, List.find?_cons, ha]
      have hfn : ∀ q : List String, pre ++ [s] ++ q = pre ++ s :: q := by
        intro q
        rw [List.append_assoc]
        rfl
      have hmap : (pathsF cs).map (fun q => pre ++ [s] ++ q) =
          (pathsF cs).map ((fun q => pre ++ q) ∘ (fun q => s :: q)) := by
        apply List.map_congr_left
        intro q _
        simp only [Function.comp_apply]
        exact hfn q
      rw [hmap]
      rfl
    · rw [if_neg ha]
      rw [Bool.not_eq_true] at ha
      unfold valSpec
      simp only [List.map_cons, List.find?_cons, ha]
      rfl

/-- Forest validation equals the first-disallowed-path characterization
over the forest's preorder path list. -/
theorem valF_spec : ∀ (allow : List (List String)) (pre : List String) (f : RForest),
    valF allow pre f = valSpec allow ((pathsF f).map (fun q => pre ++ q))
  | allow, pre, RForest.nil => by
    rw [valF, pathsF]
    rfl
  | allow, pre, RForest.cons t rest => by
    rw [valF, pathsF]
    rw [valT_spec allow pre t, valF_spec allow pre rest]
    unfold valSpec
    rw [List.map_append, find_append]
    rcases hf : ((pathsT t).map (fun q => pre ++ q)).find?
        (fun p => !(allowedPath allow p)) with _ | e
    · rfl
    · rfl
end

/-- C6: for all relation-path expressions P and allow-lists A, parsing P
succeeds if and only if P is syntactically well-formed per the grammar
(balanced brackets and nonempty names are enforced by derivability), and
validating P's parsed tree against A succeeds if and only if every path of
the tree is a literal prefix-subset of some allow-list path; a disallowed
path fails naming exactly the first (preorder) disallowed path — validation
is a pure pre-execution check, so no statement is involved. -/
theorem relpath_parse_and_validate :
    (∀ s : String, (parseRel s).isSome ↔ WellFormedPath s) ∧
    (∀ (allow : List (List String)) (f : RForest),
      validateTree allow f = Except.ok () ↔
        ∀ p ∈ pathsF f, allowedPath allow p = true) ∧
    (∀ (allow : List (List String)) (f : RForest) (e : List String),
      validateTree allow f = Except.error e ↔
        (pathsF f).find? (fun p => !(allowedPath allow p)) = some e) := by
  have hval : ∀ (allow : List (List String)) (f : RForest),
      validateTree allow f = valSpec allow (pathsF f) := by
    intro allow f
    rw [validateTree, valF_spec allow [] f, map_nil_append]
  refine ⟨?_, ?_, ?_⟩
  · intro s
    exact parseToks_isSome_iff (tokenize s)
  · intro allow f
    rw [hval]
    unfold valSpec
    rcases hf : (pathsF f).find? (fun p => !(allowedPath allow p)) with _ | e
    · constructor
      · intro _ p hp
        have h2 := List.find?_eq_none.mp hf p hp
        simpa using h2
      · intro _
        rfl
    · constructor
      · intro hx
        cases hx
      · intro hall
        have he := List.find?_some hf
        have hmem := List.mem_of_find?_eq_some hf
        rw [hall e hmem] at he
        cases he
  · intro allow f e
    rw [hval]
    unfold valSpec
    rcases hf : (pathsF f).find? (fun p => !(allowedPath allow p)) with _ | e2
    · constructor
      · intro hx
        cases hx
      · intro hx
        cases hx
    · constructor
      · intro hx
        rw [Except.error.injEq] at hx
        rw [hx]
      · intro hx
        rw [Option.some.injEq] at hx
        rw [hx]

/-- C6 witness: the expression `children.[pets, movies]` parses (it is
well-formed), its tree validates against the path set of api.js's
`allowInsert` list, and the tree for `movies.actors` fails naming the first
disallowed path `[movies, actors]`. -/
theorem relpath_parse_and_validate_witness :
    (parseRel "children.[pets, movies]").isSome ∧
    validateTree
      [["pets"], ["children"], ["children", "pets"], ["children", "movies"],
       ["movies"], ["parent"]]
      (RForest.cons (RTree.node "children"
        (RForest.cons (RTree.node "pets" RForest.nil)
          (RForest.cons (RTree.node "movies" RForest.nil) RForest.nil))) RForest.nil) =
      Except.ok () ∧
    validateTree
      [["pets"], ["children"], ["children", "pets"], ["children", "movies"],
       ["movies"], ["parent"]]
      (RForest.cons (RTree.node "movies"
        (RForest.cons (RTree.node "actors" RForest.nil) RForest.nil)) RForest.nil) =
      Except.error ["movies", "actors"] := by
  refine ⟨?_, ?_, ?_⟩
  · apply (relpath_parse_and_validate.1 "children.[pets, movies]").mpr
    exact Or.inl (Gram.single _ (Gram.bracket "children" _
      (Gram.more [Tok.name "pets"] [Tok.name "movies"]
        (Gram.leaf "pets") (Gram.single _ (Gram.leaf "movies")))))
  · apply (relpath_parse_and_validate.2.1 _ _).mpr
    decide
  · apply (relpath_parse_and_validate.2.2 _ _ _).mpr
    decide

/-! ### Transactional rollback (C3) -/

/-- An operation always occupies its own slot. -/
theorem sameKey_self (a : InsertOp) : sameKey a a = true := by
  simp [sameKey]

/-- Slot equality, propositionally. -/
theorem sameKey_eq_true (a b : InsertOp) :
    sameKey a b = true ↔ a.table = b.table ∧ a.key = b.key := by
  simp [sameKey]

/-- Rolling back exactly the transaction's own rows from the visible
database restores the database the transaction started from, provided none
of the pre-existing rows occupies a slot the transaction wrote. -/
theorem removeOps_append_self (db done : List InsertOp)
    (hd : ∀ o ∈ db, done.any (fun d => sameKey d o) = false) :
    removeOps (db ++ done) done = db := by
  unfold removeOps
  rw [List.filter_append]
  have h1 : db.filter (fun o => !(done.any (fun d => sameKey d o))) = db := by
    rw [List.filter_eq_self]
    intro o ho
    rw [hd o ho]
    rfl
  have h2 : done.filter (fun o => !(done.any (fun d => sameKey d o))) = [] := by
    rw [List.filter_eq_nil_iff]
    intro d hdm
    have : done.any (fun x => sameKey x d) = true :=
      List.any_eq_true.mpr ⟨d, hdm, sameKey_self d⟩
    simp [this]
  rw [h1, h2, List.append_nil]

/-- Core rollback invariant: if the part of the plan still to run fails,
then transactional execution from a visible database `db ++ done` (original
rows plus the rows recorded so far, whose slots are disjoint from `db`'s)
ends in exactly `db`. -/
theorem runPlanTxAux_error (plan : List InsertOp) :
    ∀ (db done : List InsertOp) (e : String),
    (∀ o ∈ db, done.any (fun d => sameKey d o) = false) →
    runPlan (db ++ done) plan = Except.error e →
    runPlanTxAux (db ++ done) done plan = db := by
  induction plan with
  | nil =>
    intro db done e _ hrun
    simp [runPlan] at hrun
  | cons op rest ih =>
    intro db done e hd hrun
    unfold runPlan at hrun
    unfold runPlanTxAux
    by_cases hc : keyConflict (db ++ done) op = true
    · rw [hc]
      simp only [if_true]
      exact removeOps_append_self db done hd
    · rw [Bool.not_eq_true] at hc
      rw [hc] at hrun ⊢
      simp only [if_false, Bool.false_eq_true, reduceIte] at hrun ⊢
      have hassoc : db ++ done ++ [op] = db ++ (done ++ [op]) := by
        rw [List.append_assoc]
      rw [hassoc] at hrun ⊢
      refine ih db (done ++ [op]) e ?_ hrun
      intro o ho
      rw [List.any_append]
      rw [hd o ho]
      simp only [Bool.false_or, List.any_cons, List.any_nil, Bool.or_false]
      have hop : ∀ x ∈ db ++ done, sameKey x op = false := by
        intro x hx
        have := congrArg (fun b => b) hc
        unfold keyConflict at hc
        rw [List.any_eq_false] at hc
        exact Bool.eq_false_iff.mpr (hc x hx)
      have hoab : sameKey o op = false := hop o (List.mem_append_left done ho)
      rw [sameKey] at hoab ⊢
      rcases Bool.and_eq_false_iff.mp hoab with h1 | h1
      · apply Bool.and_eq_false_iff.mpr
        left
        rw [beq_eq_false_iff_ne] at h1 ⊢
        exact fun hne => h1 hne.symm
      · apply Bool.and_eq_false_iff.mpr
        right
        rw [beq_eq_false_iff_ne] at h1 ⊢
        exact fun hne => h1 hne.symm

/-- C3: for every Insert Plan, if any statement of the plan fails during
execution, transactional execution leaves the database exactly as it was —
in particular every table holds the same number of rows as before, and from
an empty database zero net rows remain across all touched tables. -/
theorem plan_failure_rolls_back (db plan : List InsertOp) (e : String)
    (h : runPlan db plan = Except.error e) :
    runPlanTx db plan = db ∧
    (∀ t, rowsIn (runPlanTx db plan) t = rowsIn db t) ∧
    (db = [] → ∀ t, rowsIn (runPlanTx db plan) t = 0) := by
  have hbase : runPlanTx db plan = db := by
    unfold runPlanTx
    have h0 : db ++ ([] : List InsertOp) = db := List.append_nil db
    have := runPlanTxAux_error plan db [] e (fun o _ => rfl) (by rw [h0]; exact h)
    rw [h0] at this
    exact this
  refine ⟨hbase, fun t => by rw [hbase], fun hdb t => by rw [hbase, hdb]; rfl⟩

/-- C3 witness: a two-statement plan whose second statement reuses the slot
`(Person, 1)` fails with `UniqueViolation`, and transactional execution from
the empty database leaves zero rows in every touched table. -/
theorem plan_failure_rolls_back_witness :
    runPlan [] [InsertOp.mk "Person" 1 [], InsertOp.mk "Person" 1 []] =
      Except.error "UniqueViolation" ∧
    (runPlanTx [] [InsertOp.mk "Person" 1 [], InsertOp.mk "Person" 1 []] = [] ∧
     (∀ t, rowsIn (runPlanTx [] [InsertOp.mk "Person" 1 [], InsertOp.mk "Person" 1 []]) t = rowsIn [] t) ∧
     (([] : List InsertOp) = [] → ∀ t,
       rowsIn (runPlanTx [] [InsertOp.mk "Person" 1 [], InsertOp.mk "Person" 1 []]) t = 0)) :=
  ⟨rfl, plan_failure_rolls_back [] [InsertOp.mk "Person" 1 [], InsertOp.mk "Person" 1 []]
    "UniqueViolation" rfl⟩

end ObjectionSpec
